import Mathlib

/-!
# rp-tool `rw`: the process-correlation engine

A shallow embedding of `src/rw/rw.go`: the command-template compiler
(`system.buildRegexp`), the matcher (`system.Match`), the metadata resolver
(`system.GetGame`) and the polling loop (`Watcher.run`).

Conventions of the embedding.

* Go strings are lists of characters (`Str`); invalid UTF-8 is not modelled.
* Go `error` values are identified by their message; `none` is `nil`.
* A Go function that can end in a run-time crash (index out of range, nil
  dereference) returns `Option`, with `none` for the crash.
* `time.Time` is a number of nanoseconds.
* Values sent on the channels `Events` and `Errors` are appended to lists.
-/

set_option maxRecDepth 100000

namespace RW

/-! ## Strings -/

/-- Go strings, as character sequences. -/
abbrev Str := List Char

/-- Go `error` values, identified by their message. -/
abbrev GoError := Str

/-- The byte `\x00`. -/
def NUL : Char := Char.ofNat 0

/-- The backslash character. -/
def backslash : Char := Char.ofNat 92

/-- The newline character. -/
def newline : Char := Char.ofNat 10

/-- The characters `regexp.QuoteMeta` escapes: the fourteen characters
backslash, dot, plus, star, question mark, parentheses, bar, brackets, braces,
caret and dollar. -/
def specialChars : List Char :=
  [backslash, '.', '+', '*', '?', '(', ')', '|', '[', ']',
   Char.ofNat 123, Char.ofNat 125, '^', '$']

/-- The test `special(b)` of package `regexp`. -/
def special (c : Char) : Bool := decide (c ∈ specialChars)

/-- `regexp.QuoteMeta`: a backslash is put before every special character. -/
def QuoteMeta : Str → Str
  | [] => []
  | c :: cs => if special c then backslash :: c :: QuoteMeta cs else c :: QuoteMeta cs

/-- Position of the first occurrence of `substr` in `s`, counted from `n`. -/
def indexFrom {α : Type} [DecidableEq α] (substr : List α) : List α → Nat → Option Nat
  | [], n => if substr = [] then some n else none
  | c :: cs, n => if substr.isPrefixOf (c :: cs) then some n else indexFrom substr cs (n + 1)

/-- `strings.Index`: the position of the first occurrence, `-1` when absent. -/
def Index (s substr : Str) : Int :=
  match indexFrom substr s 0 with
  | some n => (n : Int)
  | none => -1

/-- `strings.Replace(s, old, new, 1)`: the first occurrence of `old` is replaced.
The element type is left open so that the same function can be read on
compiled patterns. -/
def Replace1 {α : Type} [DecidableEq α] (old new : List α) : List α → List α
  | [] => if old = [] then new else []
  | c :: cs =>
    if old.isPrefixOf (c :: cs) then new ++ (c :: cs).drop old.length
    else c :: Replace1 old new cs

/-! ## The regular expressions that `buildRegexp` compiles -/

/-- One node of a compiled pattern: a literal character, the capturing group
`(.+?)`, or the non-capturing `.+?`. -/
inductive ReTok where
  | lit (c : Char)
  | cap
  | any
  deriving DecidableEq, Repr

/-- A compiled pattern (`*regexp.Regexp`), a concatenation of nodes. -/
abbrev Regexp := List ReTok

/-- `regexp.Compile` on the syntax `buildRegexp` produces: ordinary characters,
a backslash followed by a punctuation character, `(.+?)` and `.+?`. Any other
use of a special character is outside the modelled syntax and is reported as an
error. -/
def regexpCompile : Str → Except GoError Regexp
  | [] => .ok []
  | '(' :: '.' :: '+' :: '?' :: ')' :: rest =>
    match regexpCompile rest with
    | .ok r => .ok (.cap :: r)
    | .error e => .error e
  | '.' :: '+' :: '?' :: rest =>
    match regexpCompile rest with
    | .ok r => .ok (.any :: r)
    | .error e => .error e
  | c :: rest =>
    if c = backslash then
      match rest with
      | [] => .error "trailing backslash at end of expression".toList
      | d :: rest2 =>
        if d.toNat < 128 ∧ ¬ d.isAlphanum then
          match regexpCompile rest2 with
          | .ok r => .ok (.lit d :: r)
          | .error e => .error e
        else .error "invalid escape sequence".toList
    else if special c then .error "unsupported syntax".toList
    else
      match regexpCompile rest with
      | .ok r => .ok (.lit c :: r)
      | .error e => .error e

/-- Backtracking match of a pattern at the start of the input: the text
consumed and the capture groups, or `none`. The node `.+?` takes one character
other than newline and prefers to stop as early as the rest of the pattern
allows. -/
def matchHere : Str → Regexp → Option (Str × List Str)
  | _, [] => some ([], [])
  | [], _ :: _ => none
  | x :: xs, .lit c :: ts =>
    if x = c then
      match matchHere xs ts with
      | some r => some (x :: r.1, r.2)
      | none => none
    else none
  | x :: xs, .any :: ts =>
    if x = newline then none
    else
      match matchHere xs ts with
      | some r => some (x :: r.1, r.2)
      | none =>
        match matchHere xs (.any :: ts) with
        | some r => some (x :: r.1, r.2)
        | none => none
  | x :: xs, .cap :: ts =>
    if x = newline then none
    else
      match matchHere xs ts with
      | some r => some (x :: r.1, [x] :: r.2)
      | none =>
        match matchHere xs (.cap :: ts) with
        | some (w, g :: gs) => some (x :: w, (x :: g) :: gs)
        | _ => none

/-- `(*Regexp).FindStringSubmatch`: the leftmost match, as the matched text
followed by the capture groups; `none` is the `nil` slice of no match. -/
def FindStringSubmatch (re : Regexp) : Str → Option (List Str)
  | [] =>
    match matchHere [] re with
    | some r => some (r.1 :: r.2)
    | none => none
  | x :: xs =>
    match matchHere (x :: xs) re with
    | some r => some (r.1 :: r.2)
    | none => FindStringSubmatch re xs

/-! ## Emulator descriptors -/

/-- The struct `system`. -/
structure system where
  Name : Str := []
  FullName : Str := []
  Path : Str := []
  Platform : Str := []
  Command : Str := []
  re : Option Regexp := none
  v : Str := []
  skip : Bool := false
  GameListPath : Str := []
  home : Str := []
  deriving DecidableEq, Repr

/-- The placeholder token `%ROM%`. -/
def ROM : Str := "%ROM%".toList

/-- The placeholder token `%BASENAME%`. -/
def BASENAME : Str := "%BASENAME%".toList

/-- The placeholder token `%ROM_RAW%`. -/
def ROM_RAW : Str := "%ROM_RAW%".toList

/-- The slice `vars` of `buildRegexp`. -/
def vars : List Str := [ROM, BASENAME, ROM_RAW]

/-- The `for _, v := range vars` loop of `buildRegexp`, on the descriptor, the
string `reStr` and the flag `found`. `Sum.inl` is the early `return nil`. -/
def buildLoop : List Str → system → Str → Bool → system ⊕ (system × Str)
  | [], s, reStr, _ => .inr (s, reStr)
  | v :: vs, s, reStr, found =>
    if s.Command = v then .inl { s with skip := true }
    else if Index reStr v ≠ -1 then
      if !found then buildLoop vs { s with v := v } (Replace1 v "(.+?)".toList reStr) true
      else buildLoop vs s (Replace1 v ".+?".toList reStr) found
    else buildLoop vs s reStr found

/-- `system.buildRegexp`: the descriptor after the call and the returned error. -/
def buildRegexp (s : system) : system × Option GoError :=
  match buildLoop vars s (QuoteMeta s.Command) false with
  | .inl s1 => (s1, none)
  | .inr (s1, reStr) =>
    match regexpCompile (NUL :: reStr ++ [NUL]) with
    | .error err => (s1, some err)
    | .ok re => ({ s1 with re := some re }, none)

/-- The `strings.Map` call of `Match`, with the closure variable `slash`: a
backslash is dropped unless the character before it was a dropped backslash. -/
def unslash : Bool → Str → Str
  | _, [] => []
  | slash, r :: rs =>
    if r = backslash ∧ slash = false then unslash true rs
    else r :: unslash false rs

/-- `system.Match`: the returned string and error; `none` when the call crashes
(nil pattern, or no group 1 in the match). -/
def Match (s : system) (cmd : Str) : Option (Str × Option GoError) :=
  if s.skip then some ([], none)
  else
    match s.re with
    | none => none
    | some re =>
      match FindStringSubmatch re cmd with
      | none => some ([], none)
      | some m =>
        match m.get? 1 with
        | none => none
        | some m1 =>
          if s.v = ROM then some (unslash false m1, none)
          else some (m1, none)

/-! ## Package `path/filepath` (Unix) and `strconv` -/

/-- The elements of a path between its separators. -/
def splitSlash : Str → List Str
  | [] => [[]]
  | c :: cs =>
    if c = '/' then [] :: splitSlash cs
    else
      match splitSlash cs with
      | [] => [[c]]
      | e :: es => (c :: e) :: es

/-- `strings.Join(elems, "/")`. -/
def joinSlash : List Str → Str
  | [] => []
  | [e] => e
  | e :: es => e ++ '/' :: joinSlash es

/-- The element pass of `filepath.Clean`: empty and `.` elements are dropped, a
`..` removes the element before it, is dropped at the root, and is kept at the
start of a relative path. `out` is the stack of kept elements, last first. -/
def cleanElems (rooted : Bool) : List Str → List Str → List Str
  | out, [] => out.reverse
  | out, e :: es =>
    if e = [] ∨ e = ['.'] then cleanElems rooted out es
    else if e = ['.', '.'] then
      match out with
      | top :: rest =>
        if top = ['.', '.'] then cleanElems rooted (e :: out) es
        else cleanElems rooted rest es
      | [] => if rooted then cleanElems rooted [] es else cleanElems rooted [e] es
    else cleanElems rooted (e :: out) es

/-- `filepath.Clean`. -/
def Clean (path : Str) : Str :=
  if path = [] then ['.']
  else
    let rooted := path.head? = some '/'
    let body := joinSlash (cleanElems rooted [] (splitSlash path))
    if rooted then '/' :: body
    else if body = [] then ['.'] else body

/-- `filepath.IsAbs`. -/
def IsAbs (path : Str) : Bool := path.head? = some '/'

/-- `filepath.Base`: the last element of the path, trailing slashes removed. -/
def Base (path : Str) : Str :=
  if path = [] then ['.']
  else
    let p := (path.reverse.dropWhile (fun c => c = '/')).reverse
    let p := (p.reverse.takeWhile (fun c => c ≠ '/')).reverse
    if p = [] then ['/'] else p

/-- `filepath.Ext`: the suffix of the last element from its final dot on. -/
def Ext (path : Str) : Str :=
  let last := path.reverse.takeWhile (fun c => c ≠ '/')
  if '.' ∈ last then '.' :: (last.takeWhile (fun c => c ≠ '.')).reverse else []

/-- `filepath.Dir`: everything up to the last separator, cleaned. -/
def Dir (path : Str) : Str :=
  Clean (path.reverse.dropWhile (fun c => c ≠ '/')).reverse

/-- `filepath.Join`: the elements from the first non-empty one on, joined and
cleaned. -/
def Join : List Str → Str
  | [] => []
  | e :: es => if e ≠ [] then Clean (joinSlash (e :: es)) else Join es

/-- The value of a non-empty run of decimal digits. -/
def digitsVal : Nat → Str → Option Nat
  | acc, [] => some acc
  | acc, c :: cs => if c.isDigit then digitsVal (acc * 10 + (c.toNat - 48)) cs else none

/-- `strconv.Atoi` for a 64-bit `int`: an optional sign and decimal digits. -/
def Atoi (s : Str) : Option Int :=
  let body : Bool × Str :=
    match s with
    | '-' :: r => (true, r)
    | '+' :: r => (false, r)
    | _ => (false, s)
  if body.2 = [] then none
  else
    match digitsVal 0 body.2 with
    | none => none
    | some n =>
      let v : Int := if body.1 then -(n : Int) else (n : Int)
      if -(2 : Int) ^ 63 ≤ v ∧ v < (2 : Int) ^ 63 then some v else none

/-! ## Game records and the metadata resolver -/

/-- The type `xml.Name`. -/
structure XMLNameT where
  Space : Str := []
  Local : Str := []
  deriving DecidableEq, Repr

/-- The struct `Game`. `Rating` is the bit pattern of the `float64`, which the
code only carries. -/
structure Game where
  XMLName : XMLNameT := {}
  Path : Str := []
  GameTitle : Str := []
  Overview : Str := []
  Image : Str := []
  Thumb : Str := []
  Rating : Nat := 0
  ReleaseDate : Str := []
  Developer : Str := []
  Publisher : Str := []
  Genre : Str := []
  Players : Int := 0
  deriving DecidableEq, Repr

/-- The field rewrite of `GetGame`: a non-empty relative path is joined to the
directory of the catalog and cleaned. -/
def resolveField (s : system) (field : Str) : Str :=
  if field ≠ [] ∧ ¬ IsAbs field then Clean (Join [Dir s.GameListPath, field]) else field

/-- The `for _, x := range gl.GameList` loop of `GetGame`; `none` when the loop
ends without a `return`. -/
def findGame (s : system) (name : Str) : List Game → Option Game
  | [] => none
  | x :: xs =>
    let gName := Base x.Path
    let gName := if s.v = BASENAME then gName.take (gName.length - (Ext gName).length) else gName
    if gName ≠ name then findGame s name xs
    else
      some { x with
        Path := resolveField s x.Path
        Image := resolveField s x.Image
        Thumb := resolveField s x.Thumb }

/-- `system.GetGame`. `decodeFile p` is what `os.Open(p)` followed by
`xml.Decode` gives: the game list of the catalog, or the error of either. -/
def GetGame (s : system) (decodeFile : Str → Except GoError (List Game)) (game : Str) :
    Game × Option GoError :=
  if s.GameListPath = [] then ({}, some "no gamelist.xml".toList)
  else
    match decodeFile s.GameListPath with
    | .error err => ({}, some err)
    | .ok gl =>
      match findGame s (Base game) gl with
      | some x => (x, none)
      | none => ({}, some (game ++ ": not found".toList))

/-! ## Events and the polling loop -/

/-- The type `Op`. -/
inductive Op where
  | Start
  | Stop
  deriving DecidableEq, Repr

/-- The struct `System`. -/
structure System where
  Name : Str := []
  FullName : Str := []
  Platform : Str := []
  Path : Str := []
  deriving DecidableEq, Repr

/-- The struct `Event`; the zero `Op` is the empty string. -/
structure Event where
  Op : Option Op := none
  Time : Nat := 0
  System : System := {}
  Game : Game := {}
  deriving DecidableEq, Repr

/-- An entry of `ioutil.ReadDir("/proc/")`. -/
structure FileInfo where
  Name : Str
  IsDir : Bool
  deriving DecidableEq, Repr

/-- What reading `/proc/<pid>/cmdline` gives: `os.Open` fails, `ioutil.ReadAll`
fails, or the bytes are read. -/
inductive CmdRead where
  | openErr (err : GoError)
  | readErr (err : GoError)
  | ok (b : Str)
  deriving DecidableEq, Repr

/-- What the loop observes of its surroundings during one tick. -/
structure Tick where
  now : Nat
  isClosed : Bool := false
  cmdlineExists : Int → Bool := fun _ => false
  files : List FileInfo := []
  readDirErr : Option GoError := none
  cmdline : Int → CmdRead := fun _ => .openErr []
  decodeFile : Str → Except GoError (List Game) := fun _ => .error []

/-- Whether `run` is still in its loop, has returned, or has crashed. -/
inductive Status where
  | looping
  | returned
  | crashed
  deriving DecidableEq, Repr

/-- The state of `Watcher.run`: the fields of the `Watcher`, the values sent so
far on `Events` and `Errors`, the locals `procs` and `running`, and the list
`opened` of process ids whose `cmdline` the loop has opened (in order). -/
structure Watcher where
  systems : List system := []
  last : Event := {}
  Events : List Event := []
  Errors : List GoError := []
  procs : Int → Option Nat := fun _ => none
  running : Int := -1
  status : Status := .looping
  opened : List Int := []

/-- The duration `10*time.Minute`, in nanoseconds. -/
def tenMinutes : Nat := 600000000000

/-- The test `t, ok := procs[p]; ok && now.Before(t.Add(10*time.Minute))`. -/
def debounced (t : Tick) (w : Watcher) (p : Int) : Bool :=
  match w.procs p with
  | some t0 => decide (t.now < t0 + tenMinutes)
  | none => false

/-- How the descriptor loop for one candidate ends: with `found` set, with
`found` unset, or in a crash of `Match`. -/
inductive ScanEnd where
  | found
  | notFound
  | crashed
  deriving DecidableEq, Repr

/-- The `for _, s := range w.systems` loop for the candidate `p` with arguments
`b`. -/
def scanSystems (t : Tick) (p : Int) (b : Str) : List system → Watcher → Watcher × ScanEnd
  | [], w => (w, .notFound)
  | s :: ss, w =>
    match Match s b with
    | none => (w, .crashed)
    | some (_, some err) => scanSystems t p b ss { w with Errors := w.Errors ++ [err] }
    | some (m, none) =>
      if m = [] then scanSystems t p b ss w
      else
        let r := GetGame s t.decodeFile m
        let w1 : Watcher :=
          match r.2 with
          | some err => { w with Errors := w.Errors ++ [err] }
          | none => w
        let g : Game :=
          match r.2 with
          | some _ => { Path := m }
          | none => r.1
        let e : Event :=
          { Op := some .Start
            Time := t.now
            Game := g
            System := { Name := s.Name, FullName := s.FullName, Platform := s.Platform, Path := s.Path } }
        ({ w1 with last := e, Events := w1.Events ++ [e], running := p }, .found)

/-- The `for _, file := range files` loop of one tick. -/
def scanFiles (t : Tick) : List FileInfo → Watcher → Watcher
  | [], w => w
  | file :: files, w =>
    if !file.IsDir then scanFiles t files w
    else
      match Atoi file.Name with
      | none => scanFiles t files w
      | some p =>
        if debounced t w p then scanFiles t files w
        else
          match t.cmdline p with
          | .openErr err =>
            scanFiles t files { w with Errors := w.Errors ++ [err], opened := w.opened ++ [p] }
          | .readErr err =>
            { w with Errors := w.Errors ++ [err], opened := w.opened ++ [p], status := .returned }
          | .ok b =>
            match scanSystems t p b w.systems { w with opened := w.opened ++ [p] } with
            | (w1, .crashed) => { w1 with status := .crashed }
            | (w1, .notFound) =>
              scanFiles t files { w1 with procs := fun q => if q = p then some t.now else w1.procs q }
            | (w1, .found) => scanFiles t files w1

/-- One iteration of `for now := range c` in `run`. -/
def tick (t : Tick) (w : Watcher) : Watcher :=
  if w.status ≠ .looping then w
  else if t.isClosed then { w with status := .returned }
  else if w.running ≠ -1 ∧ t.cmdlineExists w.running then w
  else
    let w1 : Watcher :=
      if w.running ≠ -1 then
        let e : Event := { w.last with Op := some .Stop, Time := t.now }
        { w with Events := w.Events ++ [e], last := e, running := -1 }
      else w
    let w2 : Watcher :=
      match t.readDirErr with
      | some err => { w1 with Errors := w1.Errors ++ [err] }
      | none => w1
    scanFiles t t.files w2

/-- The state of `run` after the given ticks. -/
def run (ticks : List Tick) (w : Watcher) : Watcher :=
  ticks.foldl (fun w t => tick t w) w

/-- The state in which `New` starts `run`. -/
def Watcher.init (systems : List system) : Watcher := { systems := systems }

/-! ## Concrete descriptors and ticks used in the evaluations below -/

/-- A descriptor with template `emu %ROM%` and no catalog, after `buildRegexp`. -/
def emuSys : system :=
  (buildRegexp { Name := "snes".toList, Command := "emu %ROM%".toList }).1

/-- A tick whose process table lists the processes 10 and 11, both launched by
`sh -c` with a command line that matches `emu %ROM%`. -/
def twoMatchTick : Tick :=
  { now := 5
    files := [⟨"10".toList, true⟩, ⟨"11".toList, true⟩]
    cmdline := fun p =>
      if p = 10 then .ok "sh\x00-c\x00emu a\x00".toList
      else if p = 11 then .ok "sh\x00-c\x00emu b\x00".toList
      else .openErr "no such file".toList }

/-- A tick in which `cmdline` of process 10 opens but cannot be read, and
process 11 would match `emu %ROM%`. -/
def readFailTick : Tick :=
  { now := 5
    files := [⟨"10".toList, true⟩, ⟨"11".toList, true⟩]
    cmdline := fun p =>
      if p = 10 then .readErr "read error".toList
      else if p = 11 then .ok "sh\x00-c\x00emu b\x00".toList
      else .openErr "no such file".toList }

/-- A tick whose process table lists only process 10, which matches `emu %ROM%`. -/
def oneMatchTick : Tick :=
  { now := 5
    files := [⟨"10".toList, true⟩]
    cmdline := fun p =>
      if p = 10 then .ok "sh\x00-c\x00emu a\x00".toList
      else .openErr "no such file".toList }

/-- A later tick in which process 10 is gone and the process table is empty. -/
def goneTick : Tick := { now := 6 }

/-- The descriptor of the scenario `retroarch -L core.so %ROM%`, after
`buildRegexp`. -/
def retroarchSys : system :=
  (buildRegexp
    { Name := "snes".toList
      Path := "/home/pi/roms/snes".toList
      Command := "retroarch -L core.so %ROM%".toList }).1

/-- The most recent `Start` event of a list of events. -/
def lastStart (evs : List Event) : Option Event :=
  (evs.filter (fun e => e.Op = some .Start)).getLast?

/-- The `Start` event `run` builds for descriptor `s`, content path `m` and the
result `r` of `GetGame`. -/
def startEvent (s : system) (now : Nat) (m : Str) (r : Game × Option GoError) : Event :=
  { Op := some .Start
    Time := now
    Game := match r.2 with
      | some _ => { Path := m }
      | none => r.1
    System := { Name := s.Name, FullName := s.FullName, Platform := s.Platform, Path := s.Path } }

/-- Every `Stop` event of the list repeats the `System` and `Game` of the most
recent `Start` event before it. -/
def StopsPaired (evs : List Event) : Prop :=
  ∀ (pre : List Event) (e : Event) (post : List Event), evs = pre ++ e :: post →
    e.Op = some .Stop →
    ∃ st : Event, lastStart pre = some st ∧ st.System = e.System ∧ st.Game = e.Game

/-- The invariant of `run` behind the pairing of `Stop` with `Start`: the events
sent so far are paired, and while a process is tracked `w.last` carries the
`System` and `Game` of the most recent `Start` event. -/
def TrackInv (w : Watcher) : Prop :=
  StopsPaired w.Events ∧
  (w.running ≠ -1 →
    ∃ st : Event, lastStart w.Events = some st ∧ st.System = w.last.System ∧
      st.Game = w.last.Game)

/-- The descriptor with template `emu %ROM% %ROM%`, before `buildRegexp`. -/
def twiceRomSys : system := { Name := "snes".toList, Command := "emu %ROM% %ROM%".toList }

/-- The descriptor with template `emu %BASENAME% %ROM%`, before `buildRegexp`. -/
def basenameThenRomSys : system :=
  { Name := "snes".toList, Command := "emu %BASENAME% %ROM%".toList }

/-- The literal nodes of a text. -/
def lits (text : Str) : Regexp := text.map ReTok.lit

/-- The pattern text of a compiled pattern: literal characters are quoted as
`QuoteMeta` quotes them, the two wildcards are written `(.+?)` and `.+?`. -/
def render : Regexp → Str
  | [] => []
  | .lit c :: ts => if special c then backslash :: c :: render ts else c :: render ts
  | .cap :: ts => '(' :: '.' :: '+' :: '?' :: ')' :: render ts
  | .any :: ts => '.' :: '+' :: '?' :: render ts

/-- The loop of `buildRegexp` read on compiled patterns instead of pattern
text: `buildLoop` on `render ts` does what this loop does on `ts`
(`buildLoop_render`). -/
def buildLoopT : List Str → system → Regexp → Bool → system ⊕ (system × Regexp)
  | [], s, ts, _ => .inr (s, ts)
  | v :: vs, s, ts, found =>
    if s.Command = v then .inl { s with skip := true }
    else if (indexFrom (lits v) ts 0).isSome then
      if !found then buildLoopT vs { s with v := v } (Replace1 (lits v) [ReTok.cap] ts) true
      else buildLoopT vs s (Replace1 (lits v) [ReTok.any] ts) found
    else buildLoopT vs s ts found

/-- A text without special characters. -/
def plain (text : Str) : Prop := ∀ c ∈ text, special c = false

/-- The placeholder occurrences of a template, each as its position (counted
from `n`) and its kind, from left to right. -/
def placeholdersFrom : Str → Nat → List (Nat × Str)
  | [], _ => []
  | c :: cs, n =>
    (vars.filter (fun K => K.isPrefixOf (c :: cs))).map (fun K => (n, K))
      ++ placeholdersFrom cs (n + 1)

/-- Whether kind `P` stands before kind `Q` in `vars`, the order in which
`buildRegexp` tries the kinds. -/
def triedBefore (P Q : Str) : Bool := decide (vars.indexOf P < vars.indexOf Q)

/-- The descriptor with template `emu %ROM% -f`, before `buildRegexp`. -/
def trailingFlagSys : system := { Name := "snes".toList, Command := "emu %ROM% -f".toList }

/-- The descriptor with template `emu`, which has no placeholder, before
`buildRegexp`. -/
def noPlaceholderSys : system := { Name := "snes".toList, Command := "emu".toList }

/-- A tick whose process table lists process 10, started as `sh emu`. -/
def plainEmuTick : Tick :=
  { now := 5
    files := [⟨"10".toList, true⟩]
    cmdline := fun p =>
      if p = 10 then .ok "sh\x00emu\x00".toList
      else .openErr "no such file".toList }

/-- A name without its extension, `gName[:len(gName)-len(filepath.Ext(gName))]`. -/
def stripExt (name : Str) : Str := name.take (name.length - (Ext name).length)

/-- The name under which `GetGame` compares a catalog entry: the base of its
stored path, without extension when the captured kind is `%BASENAME%`. -/
def storedName (s : system) (x : Game) : Str :=
  if s.v = BASENAME then stripExt (Base x.Path) else Base x.Path

/-- A catalog entry as `GetGame` returns it, its three path fields rewritten. -/
def resolveEntry (s : system) (x : Game) : Game :=
  { x with
    Path := resolveField s x.Path
    Image := resolveField s x.Image
    Thumb := resolveField s x.Thumb }

/-- A descriptor with template `emu %BASENAME%`, after `buildRegexp`, with its
catalog at `/home/pi/.emulationstation/gamelists/snes/gamelist.xml`. -/
def snesSys : system :=
  { (buildRegexp { Name := "snes".toList, Command := "emu %BASENAME%".toList }).1 with
    GameListPath := "/home/pi/.emulationstation/gamelists/snes/gamelist.xml".toList }

/-- A catalog reader: every catalog file holds the one entry `./Game.sfc` with
title `Game`, image `/img/Game.png` and no thumbnail. -/
def snesCatalog : Str → Except GoError (List Game) :=
  fun _ => .ok [{ Path := "./Game.sfc".toList, GameTitle := "Game".toList,
                  Image := "/img/Game.png".toList }]

/-- The debounce table holds for `p` a time not earlier than `t0`. -/
def Held (p : Int) (t0 : Nat) (w : Watcher) : Prop :=
  ∃ t1 : Nat, w.procs p = some t1 ∧ t0 ≤ t1

/-- A tick at time 5 whose process table lists process 10, started as
`sh other`, which matches no descriptor. -/
def otherTick : Tick :=
  { now := 5
    files := [⟨"10".toList, true⟩]
    cmdline := fun p =>
      if p = 10 then .ok "sh\x00other\x00".toList
      else .openErr "no such file".toList }

/-- The tick one second after `otherTick`, with the same process table. -/
def otherTickLater : Tick :=
  { now := 1000000005
    files := [⟨"10".toList, true⟩]
    cmdline := fun p =>
      if p = 10 then .ok "sh\x00other\x00".toList
      else .openErr "no such file".toList }

/-! ## Evaluations of the polling loop -/

/-- C1: with two matching candidates in one process table the scan does not
stop at the first: process 11 is opened and matched after process 10 matched,
a second `Start` event is sent and process 11 becomes the tracked one. -/
theorem scan_goes_on_after_first_match :
    (Match emuSys "sh\x00-c\x00emu a\x00".toList = some ("a".toList, none)) ∧
    (run [twoMatchTick] (Watcher.init [emuSys])).opened = [10, 11] ∧
    (run [twoMatchTick] (Watcher.init [emuSys])).Events.map (fun e => (e.Op, e.Game.Path))
      = [(some .Start, "a".toList), (some .Start, "b".toList)] ∧
    (run [twoMatchTick] (Watcher.init [emuSys])).running = 11 := by
  decide

/-- C2: when `ioutil.ReadAll` fails for process 10 the error is sent, but `run`
returns: process 11 is never opened, and the following tick, in which process
11 still matches, produces nothing. -/
theorem read_failure_ends_the_loop :
    (run [readFailTick] (Watcher.init [emuSys])).status = .returned ∧
    (run [readFailTick] (Watcher.init [emuSys])).Errors = ["read error".toList] ∧
    (run [readFailTick] (Watcher.init [emuSys])).opened = [10] ∧
    (run [readFailTick, twoMatchTick] (Watcher.init [emuSys])).Events = [] ∧
    (run [readFailTick, twoMatchTick] (Watcher.init [emuSys])).opened = [10] := by
  decide

/-- C3, as stated, fails: the descriptor has no catalog, `GetGame` fails for the
extracted path `a`, and the error `no gamelist.xml` is sent on `Errors`. -/
theorem getGame_failure_is_sent_on_Errors :
    (GetGame emuSys oneMatchTick.decodeFile "a".toList).2 = some "no gamelist.xml".toList ∧
    (run [oneMatchTick] (Watcher.init [emuSys])).Errors = ["no gamelist.xml".toList] := by
  decide

/-! ## The scan of one candidate -/

/-- Descriptors that return no match leave the scan of a candidate unchanged. -/
theorem scanSystems_skip_noMatch (t : Tick) (p : Int) (b : Str) (pre rest : List system)
    (w : Watcher) (h : ∀ s0 ∈ pre, Match s0 b = some ([], none)) :
    scanSystems t p b (pre ++ rest) w = scanSystems t p b rest w := by
  induction pre with
  | nil => rfl
  | cons s0 pre ih =>
    have h0 : Match s0 b = some ([], none) := h s0 (List.mem_cons_self _ _)
    have ih2 := ih (fun s1 hs1 => h s1 (List.mem_cons_of_mem _ hs1))
    simp [scanSystems, h0, ih2]

/-- The effect of the descriptor loop when its first descriptor matches. -/
theorem scanSystems_match (t : Tick) (p : Int) (b m : Str) (s : system) (ss : List system)
    (w : Watcher) (hm : Match s b = some (m, none)) (hne : m ≠ []) :
    scanSystems t p b (s :: ss) w =
      ({ w with
          Errors := match (GetGame s t.decodeFile m).2 with
            | some err => w.Errors ++ [err]
            | none => w.Errors
          last := startEvent s t.now m (GetGame s t.decodeFile m)
          Events := w.Events ++ [startEvent s t.now m (GetGame s t.decodeFile m)]
          running := p }, .found) := by
  simp only [scanSystems, hm, hne, if_false, startEvent]
  cases hg : (GetGame s t.decodeFile m).2 <;> simp

/-- The effect of one iteration of the candidate loop on a candidate that is
inspected and whose arguments match descriptor `s` first. -/
theorem scanFiles_match (t : Tick) (file : FileInfo) (files : List FileInfo) (w : Watcher)
    (p : Int) (b m : Str) (pre ss : List system) (s : system)
    (hdir : file.IsDir = true) (hp : Atoi file.Name = some p)
    (hdeb : debounced t w p = false) (hread : t.cmdline p = .ok b)
    (hsys : w.systems = pre ++ s :: ss)
    (hpre : ∀ s0 ∈ pre, Match s0 b = some ([], none))
    (hm : Match s b = some (m, none)) (hne : m ≠ []) :
    scanFiles t (file :: files) w =
      scanFiles t files
        { w with
          opened := w.opened ++ [p]
          Errors := match (GetGame s t.decodeFile m).2 with
            | some err => w.Errors ++ [err]
            | none => w.Errors
          last := startEvent s t.now m (GetGame s t.decodeFile m)
          Events := w.Events ++ [startEvent s t.now m (GetGame s t.decodeFile m)]
          running := p } := by
  have key : ∀ W : Watcher, scanSystems t p b w.systems W =
      ({ W with
          Errors := match (GetGame s t.decodeFile m).2 with
            | some err => W.Errors ++ [err]
            | none => W.Errors
          last := startEvent s t.now m (GetGame s t.decodeFile m)
          Events := W.Events ++ [startEvent s t.now m (GetGame s t.decodeFile m)]
          running := p }, .found) := by
    intro W
    rw [hsys, scanSystems_skip_noMatch t p b pre (s :: ss) W hpre,
      scanSystems_match t p b m s ss W hm hne]
  simp only [scanFiles, hdir, hp, hdeb, hread, key]
  simp

/-- C3 (amended): for a candidate that is inspected and whose arguments match
descriptor `s` first with content path `m`, a failure `err` of `GetGame` is sent
on `Errors`; the `Start` event with the fallback record is sent as well and the
loop goes on with the remaining candidates. -/
theorem getGame_failure_sent_then_fallback (t : Tick) (file : FileInfo)
    (files : List FileInfo) (w : Watcher) (p : Int) (b m : Str) (pre ss : List system)
    (s : system) (err : GoError)
    (hdir : file.IsDir = true) (hp : Atoi file.Name = some p)
    (hdeb : debounced t w p = false) (hread : t.cmdline p = .ok b)
    (hsys : w.systems = pre ++ s :: ss)
    (hpre : ∀ s0 ∈ pre, Match s0 b = some ([], none))
    (hm : Match s b = some (m, none)) (hne : m ≠ [])
    (herr : (GetGame s t.decodeFile m).2 = some err) :
    ∃ w1 : Watcher, scanFiles t (file :: files) w = scanFiles t files w1 ∧
      w1.Errors = w.Errors ++ [err] ∧ w1.status = w.status ∧
      w1.Events = w.Events ++
        [{ Op := some .Start, Time := t.now, Game := { Path := m },
           System := { Name := s.Name, FullName := s.FullName, Platform := s.Platform,
                       Path := s.Path } }] := by
  refine ⟨_, scanFiles_match t file files w p b m pre ss s hdir hp hdeb hread hsys hpre hm hne,
    ?_, rfl, ?_⟩
  · simp [herr]
  · simp [startEvent, herr]

/-- Witness of C3 (amended): process 10 of `oneMatchTick` matches `emuSys`, which
has no catalog. -/
theorem getGame_failure_sent_then_fallback_witness :
    ∃ w1 : Watcher,
      scanFiles oneMatchTick [⟨"10".toList, true⟩] (Watcher.init [emuSys])
        = scanFiles oneMatchTick [] w1 ∧
      w1.Errors = (Watcher.init [emuSys]).Errors ++ ["no gamelist.xml".toList] ∧
      w1.status = (Watcher.init [emuSys]).status ∧
      w1.Events = (Watcher.init [emuSys]).Events ++
        [{ Op := some .Start, Time := oneMatchTick.now, Game := { Path := "a".toList },
           System := { Name := emuSys.Name, FullName := emuSys.FullName,
                       Platform := emuSys.Platform, Path := emuSys.Path } }] :=
  getGame_failure_sent_then_fallback oneMatchTick ⟨"10".toList, true⟩ [] (Watcher.init [emuSys])
    10 "sh\x00-c\x00emu a\x00".toList "a".toList [] [] emuSys "no gamelist.xml".toList
    (by decide) (by decide) (by decide) (by decide) (by decide)
    (fun _ h => absurd h (List.not_mem_nil _)) (by decide) (by decide) (by decide)

/-- C4: for a candidate that is inspected and whose arguments match descriptor
`s` first with content path `m`, a `Start` event is sent whether or not
`GetGame` succeeds; `GetGame` fails whenever `GameListPath` is empty, and when
it fails the game record of the event has `Path = m` and every other field at
its zero value. -/
theorem start_event_sent_with_or_without_metadata (t : Tick) (file : FileInfo)
    (files : List FileInfo) (w : Watcher) (p : Int) (b m : Str) (pre ss : List system)
    (s : system)
    (hdir : file.IsDir = true) (hp : Atoi file.Name = some p)
    (hdeb : debounced t w p = false) (hread : t.cmdline p = .ok b)
    (hsys : w.systems = pre ++ s :: ss)
    (hpre : ∀ s0 ∈ pre, Match s0 b = some ([], none))
    (hm : Match s b = some (m, none)) (hne : m ≠ []) :
    (s.GameListPath = [] → (GetGame s t.decodeFile m).2 ≠ none) ∧
    ∃ (w1 : Watcher) (e : Event),
      scanFiles t (file :: files) w = scanFiles t files w1 ∧
      w1.Events = w.Events ++ [e] ∧ e.Op = some .Start ∧ e.Time = t.now ∧
      ((GetGame s t.decodeFile m).2 = none → e.Game = (GetGame s t.decodeFile m).1) ∧
      ((GetGame s t.decodeFile m).2 ≠ none →
        e.Game = { XMLName := { Space := [], Local := [] }, Path := m, GameTitle := [],
                   Overview := [], Image := [], Thumb := [], Rating := 0, ReleaseDate := [],
                   Developer := [], Publisher := [], Genre := [], Players := 0 }) := by
  refine ⟨?_, _, _,
    scanFiles_match t file files w p b m pre ss s hdir hp hdeb hread hsys hpre hm hne,
    rfl, rfl, rfl, ?_, ?_⟩
  · intro hgl
    simp [GetGame, hgl]
  · intro hok
    simp [startEvent, hok]
  · intro hfail
    cases hg : (GetGame s t.decodeFile m).2 with
    | none => exact absurd hg hfail
    | some err => simp [startEvent, hg]

/-- Witness of C4: process 10 of `oneMatchTick` matches `emuSys`. -/
theorem start_event_sent_with_or_without_metadata_witness :
    (emuSys.GameListPath = [] →
      (GetGame emuSys oneMatchTick.decodeFile "a".toList).2 ≠ none) ∧
    ∃ (w1 : Watcher) (e : Event),
      scanFiles oneMatchTick [⟨"10".toList, true⟩] (Watcher.init [emuSys])
        = scanFiles oneMatchTick [] w1 ∧
      w1.Events = (Watcher.init [emuSys]).Events ++ [e] ∧ e.Op = some .Start ∧
      e.Time = oneMatchTick.now ∧
      ((GetGame emuSys oneMatchTick.decodeFile "a".toList).2 = none →
        e.Game = (GetGame emuSys oneMatchTick.decodeFile "a".toList).1) ∧
      ((GetGame emuSys oneMatchTick.decodeFile "a".toList).2 ≠ none →
        e.Game = { XMLName := { Space := [], Local := [] }, Path := "a".toList, GameTitle := [],
                   Overview := [], Image := [], Thumb := [], Rating := 0, ReleaseDate := [],
                   Developer := [], Publisher := [], Genre := [], Players := 0 }) :=
  start_event_sent_with_or_without_metadata oneMatchTick ⟨"10".toList, true⟩ []
    (Watcher.init [emuSys]) 10 "sh\x00-c\x00emu a\x00".toList "a".toList [] [] emuSys
    (by decide) (by decide) (by decide) (by decide) (by decide)
    (fun _ h => absurd h (List.not_mem_nil _)) (by decide) (by decide)

/-! ## The pairing of `Stop` events with `Start` events -/

theorem lastStart_append_start (evs : List Event) (e : Event) (h : e.Op = some .Start) :
    lastStart (evs ++ [e]) = some e := by
  simp [lastStart, List.filter_append, h]

theorem lastStart_append_other (evs : List Event) (e : Event) (h : e.Op ≠ some .Start) :
    lastStart (evs ++ [e]) = lastStart evs := by
  simp [lastStart, List.filter_append, h]

theorem stopsPaired_nil : StopsPaired [] := by
  intro pre e post h
  simp at h

theorem stopsPaired_append (evs : List Event) (e : Event) (h : StopsPaired evs)
    (he : e.Op = some .Stop →
      ∃ st : Event, lastStart evs = some st ∧ st.System = e.System ∧ st.Game = e.Game) :
    StopsPaired (evs ++ [e]) := by
  intro pre x post hsplit hx
  rcases List.eq_nil_or_concat post with hpost | ⟨post1, y, hpost⟩
  · subst hpost
    have h2 : evs ++ [e] = pre ++ [x] := hsplit
    obtain ⟨h3, h4⟩ := List.append_inj_right' h2 rfl |> fun hr =>
      And.intro (List.append_inj_left' h2 rfl) hr
    have h5 : e = x := by simpa using h4
    subst h3
    subst h5
    exact he hx
  · subst hpost
    have h2 : evs ++ [e] = (pre ++ x :: post1) ++ [y] := by
      simpa [List.concat_eq_append] using hsplit
    have h3 : evs = pre ++ x :: post1 := List.append_inj_left' h2 rfl
    exact h pre x post1 h3 hx

theorem trackInv_init (systems : List system) : TrackInv (Watcher.init systems) := by
  refine ⟨stopsPaired_nil, ?_⟩
  intro h
  exact absurd rfl h

theorem scanSystems_trackInv (t : Tick) (p : Int) (b : Str) (ss : List system) (w : Watcher)
    (h : TrackInv w) : TrackInv (scanSystems t p b ss w).1 := by
  induction ss generalizing w with
  | nil => exact h
  | cons s ss ih =>
    unfold scanSystems
    cases hm : Match s b with
    | none => exact h
    | some r =>
      obtain ⟨m, oerr⟩ := r
      cases oerr with
      | some err => exact ih _ h
      | none =>
        by_cases hne : m = []
        · simp only [hne, if_true]
          exact ih _ h
        · simp only [hne, if_false]
          refine ⟨?_, ?_⟩
          · cases hg : (GetGame s t.decodeFile m).2 <;>
              exact stopsPaired_append _ _ h.1 (fun hstop => by simp at hstop)
          · intro _
            cases hg : (GetGame s t.decodeFile m).2 <;>
              exact ⟨_, lastStart_append_start _ _ rfl, rfl, rfl⟩

theorem scanFiles_trackInv (t : Tick) (files : List FileInfo) (w : Watcher)
    (h : TrackInv w) : TrackInv (scanFiles t files w) := by
  induction files generalizing w with
  | nil => exact h
  | cons file files ih =>
    unfold scanFiles
    by_cases hdir : file.IsDir = true
    · simp only [hdir, Bool.not_true, Bool.false_eq_true, if_false]
      cases hp : Atoi file.Name with
      | none => exact ih w h
      | some p =>
        by_cases hdeb : debounced t w p = true
        · simp only [hdeb, if_true]
          exact ih w h
        · simp only [hdeb, Bool.false_eq_true, if_false]
          cases hread : t.cmdline p with
          | openErr err => exact ih _ h
          | readErr err => exact h
          | ok b =>
            have hs : TrackInv (scanSystems t p b w.systems { w with opened := w.opened ++ [p] }).1 :=
              scanSystems_trackInv t p b w.systems _ h
            rcases hr : scanSystems t p b w.systems { w with opened := w.opened ++ [p] }
              with ⟨w1, fin⟩
            rw [hr] at hs
            cases fin with
            | found =>
              simp only [hr]
              exact ih _ hs
            | notFound =>
              simp only [hr]
              exact ih _ hs
            | crashed =>
              simp only [hr]
              exact hs
    · simp only [hdir, Bool.not_false, if_true]
      exact ih w h

theorem tick_trackInv (t : Tick) (w : Watcher) (h : TrackInv w) : TrackInv (tick t w) := by
  unfold tick
  by_cases hst : w.status ≠ .looping
  · rw [if_pos hst]
    exact h
  · rw [if_neg hst]
    by_cases hcl : t.isClosed = true
    · rw [if_pos hcl]
      exact h
    · rw [if_neg hcl]
      by_cases hal : w.running ≠ -1 ∧ t.cmdlineExists w.running = true
      · rw [if_pos hal]
        exact h
      · rw [if_neg hal]
        apply scanFiles_trackInv
        have h1 : TrackInv
            (if w.running ≠ -1 then
              { w with
                Events := w.Events ++ [{ w.last with Op := some .Stop, Time := t.now }]
                last := { w.last with Op := some .Stop, Time := t.now }
                running := -1 }
            else w) := by
          by_cases hrun : w.running ≠ -1
          · rw [if_pos hrun]
            obtain ⟨st, hst1, hst2, hst3⟩ := h.2 hrun
            refine ⟨stopsPaired_append _ _ h.1 (fun _ => ⟨st, hst1, hst2, hst3⟩), ?_⟩
            intro hne
            exact absurd rfl hne
          · rw [if_neg hrun]
            exact h
        cases hrd : t.readDirErr with
        | none => exact h1
        | some err => exact h1

theorem run_trackInv (ticks : List Tick) (w : Watcher) (h : TrackInv w) :
    TrackInv (run ticks w) := by
  induction ticks generalizing w with
  | nil => exact h
  | cons t ticks ih => exact ih _ (tick_trackInv t w h)

/-- C5: in every execution of `run`, over any descriptors and any sequence of
ticks, each `Stop` event sent on `Events` has the `System` and `Game` of the
most recent `Start` event sent before it. -/
theorem stop_repeats_most_recent_start (systems : List system) (ticks : List Tick)
    (pre : List Event) (e : Event) (post : List Event)
    (hev : (run ticks (Watcher.init systems)).Events = pre ++ e :: post)
    (hstop : e.Op = some .Stop) :
    ∃ st : Event, lastStart pre = some st ∧ st.Op = some .Start ∧
      st.System = e.System ∧ st.Game = e.Game := by
  obtain ⟨st, h1, h2, h3⟩ :=
    (run_trackInv ticks (Watcher.init systems) (trackInv_init systems)).1 pre e post hev hstop
  refine ⟨st, h1, ?_, h2, h3⟩
  have hmem : st ∈ pre.filter (fun e => e.Op = some .Start) :=
    List.mem_of_getLast?_eq_some h1
  simpa using (List.mem_filter.mp hmem).2

/-- Witness of C5: process 10 matches in the first tick and is gone in the
second, so the events are one `Start` and one `Stop`. -/
theorem stop_repeats_most_recent_start_witness :
    (run [oneMatchTick, goneTick] (Watcher.init [emuSys])).Events =
      [startEvent emuSys 5 "a".toList ({}, some "no gamelist.xml".toList)] ++
        { startEvent emuSys 5 "a".toList ({}, some "no gamelist.xml".toList) with
          Op := some .Stop, Time := 6 } :: [] ∧
    ∃ st : Event,
      lastStart [startEvent emuSys 5 "a".toList ({}, some "no gamelist.xml".toList)] = some st ∧
      st.Op = some .Start ∧
      st.System = ({ startEvent emuSys 5 "a".toList ({}, some "no gamelist.xml".toList) with
          Op := some .Stop, Time := 6 } : Event).System ∧
      st.Game = ({ startEvent emuSys 5 "a".toList ({}, some "no gamelist.xml".toList) with
          Op := some .Stop, Time := 6 } : Event).Game :=
  ⟨by decide,
   stop_repeats_most_recent_start [emuSys] [oneMatchTick, goneTick]
    [startEvent emuSys 5 "a".toList ({}, some "no gamelist.xml".toList)]
    { startEvent emuSys 5 "a".toList ({}, some "no gamelist.xml".toList) with
      Op := some .Stop, Time := 6 } [] (by decide) (by decide)⟩

/-! ## Evaluations of the template compiler and the matcher -/

/-- C6, as stated, fails: on the four arguments joined by NUL bytes `Match`
returns the empty string, not the content path; the pattern asks for the
spaces of the template and for a NUL byte before `retroarch`. -/
theorem retroarch_four_arguments_no_match :
    (buildRegexp
      { Name := "snes".toList, Path := "/home/pi/roms/snes".toList,
        Command := "retroarch -L core.so %ROM%".toList }).2 = none ∧
    Match retroarchSys
      "retroarch\x00-L\x00core.so\x00/home/pi/roms/snes/Game.sfc".toList = some ([], none) ∧
    Match retroarchSys
      "retroarch\x00-L\x00core.so\x00/home/pi/roms/snes/Game.sfc".toList
        ≠ some ("/home/pi/roms/snes/Game.sfc".toList, none) := by
  decide

/-- C6 (amended): when the command line `retroarch -L core.so
/home/pi/roms/snes/Game.sfc`, its words separated by spaces, is one whole
argument between NUL bytes (the third argument of `sh -c ...`), `Match` returns
the content path. -/
theorem retroarch_single_argument_match :
    (buildRegexp
      { Name := "snes".toList, Path := "/home/pi/roms/snes".toList,
        Command := "retroarch -L core.so %ROM%".toList }).2 = none ∧
    retroarchSys.re =
      some (lits (NUL :: "retroarch -L core.so ".toList) ++ [ReTok.cap, ReTok.lit NUL]) ∧
    Match retroarchSys
      "sh\x00-c\x00retroarch -L core.so /home/pi/roms/snes/Game.sfc\x00".toList
        = some ("/home/pi/roms/snes/Game.sfc".toList, none) := by
  decide

/-- C8: for the template `emu %ROM% %ROM%` the second `%ROM%` stays in the
compiled pattern as literal text: the pattern matches only an argument that
ends in the characters `%ROM%` themselves. -/
theorem second_same_kind_placeholder_stays_literal :
    (buildRegexp twiceRomSys).2 = none ∧
    (buildRegexp twiceRomSys).1.re =
      some (lits (NUL :: "emu ".toList) ++ [ReTok.cap] ++ lits " %ROM%".toList ++ [ReTok.lit NUL]) ∧
    Match (buildRegexp twiceRomSys).1 "sh\x00-c\x00emu a b\x00".toList = some ([], none) ∧
    Match (buildRegexp twiceRomSys).1 "sh\x00-c\x00emu a %ROM%\x00".toList
      = some ("a".toList, none) := by
  decide

/-- C7, as stated, fails: in the template `emu %BASENAME% %ROM%` the leftmost
placeholder is `%BASENAME%`, but the capturing group is put at `%ROM%` and the
captured kind is `%ROM%`; `Match` returns the text at the second position. -/
theorem capture_is_not_leftmost_placeholder :
    (buildRegexp basenameThenRomSys).2 = none ∧
    (buildRegexp basenameThenRomSys).1.v = ROM ∧
    (buildRegexp basenameThenRomSys).1.re =
      some (lits (NUL :: "emu ".toList) ++ [ReTok.any, ReTok.lit ' ', ReTok.cap, ReTok.lit NUL]) ∧
    Match (buildRegexp basenameThenRomSys).1 "sh\x00-c\x00emu first second\x00".toList
      = some ("second".toList, none) := by
  decide

/-- C10: for a template that is exactly one placeholder token, `buildRegexp`
returns no error and marks the descriptor `skip`; `Match` then returns the
empty string and no error for every input. -/
theorem bare_placeholder_matcher_is_inert (s : system)
    (h : s.Command = ROM ∨ s.Command = BASENAME ∨ s.Command = ROM_RAW) :
    (buildRegexp s).2 = none ∧ (buildRegexp s).1.skip = true ∧
    ∀ cmd : Str, Match (buildRegexp s).1 cmd = some ([], none) := by
  have hloop : buildLoop vars s (QuoteMeta s.Command) false = .inl { s with skip := true } := by
    rcases h with h | h | h
    · simp [vars, buildLoop, h]
    · have h1 : ¬ (BASENAME = ROM) := by decide
      have h2 : ¬ (Index (QuoteMeta BASENAME) ROM ≠ -1) := by decide
      simp only [vars, buildLoop, h, h1, h2, if_false, if_true]
    · have h1 : ¬ (ROM_RAW = ROM) := by decide
      have h2 : ¬ (Index (QuoteMeta ROM_RAW) ROM ≠ -1) := by decide
      have h3 : ¬ (ROM_RAW = BASENAME) := by decide
      have h4 : ¬ (Index (QuoteMeta ROM_RAW) BASENAME ≠ -1) := by decide
      simp only [vars, buildLoop, h, h1, h2, h3, h4, if_false, if_true]
  have hb : buildRegexp s = ({ s with skip := true }, none) := by
    simp only [buildRegexp, hloop]
  refine ⟨by rw [hb], by rw [hb], ?_⟩
  intro cmd
  rw [hb]
  simp [Match]

/-- Witness of C10: the template `%BASENAME%`. -/
theorem bare_placeholder_matcher_is_inert_witness :
    (buildRegexp { Command := BASENAME }).2 = none ∧
    (buildRegexp { Command := BASENAME }).1.skip = true ∧
    ∀ cmd : Str, Match (buildRegexp { Command := BASENAME }).1 cmd = some ([], none) :=
  bare_placeholder_matcher_is_inert { Command := BASENAME } (Or.inr (Or.inl rfl))

/-! ## Compiling the pattern text -/

theorem regexpCompile_cap (rest : Str) :
    regexpCompile ('(' :: '.' :: '+' :: '?' :: ')' :: rest) =
      match regexpCompile rest with
      | .ok r => .ok (.cap :: r)
      | .error e => .error e := by
  rw [regexpCompile]

theorem regexpCompile_any (rest : Str) :
    regexpCompile ('.' :: '+' :: '?' :: rest) =
      match regexpCompile rest with
      | .ok r => .ok (.any :: r)
      | .error e => .error e := by
  rw [regexpCompile]

theorem regexpCompile_plain (c : Char) (rest : Str) (hc : special c = false) :
    regexpCompile (c :: rest) =
      match regexpCompile rest with
      | .ok r => .ok (.lit c :: r)
      | .error e => .error e := by
  have h1 : ¬ c = '(' := by rintro rfl; exact absurd hc (by decide)
  have h2 : ¬ c = '.' := by rintro rfl; exact absurd hc (by decide)
  have h3 : ¬ c = backslash := by rintro rfl; exact absurd hc (by decide)
  rw [regexpCompile.eq_def]
  split
  · rename_i h; simp at h
  · rename_i h; simp at h; exact absurd h.1 h1
  · rename_i h; simp at h; exact absurd h.1 h2
  · rename_i c2 rest2 _ _ h
    simp at h
    obtain ⟨rfl, rfl⟩ := h
    simp [h3, hc]

theorem special_is_punctuation (c : Char) (hc : special c = true) :
    c.toNat < 128 ∧ ¬ c.isAlphanum = true := by
  simp only [special, specialChars, decide_eq_true_eq, List.mem_cons, List.mem_singleton,
    List.not_mem_nil, or_false] at hc
  rcases hc with h | h | h | h | h | h | h | h | h | h | h | h | h | h <;> subst h <;> decide

theorem regexpCompile_escape (c : Char) (rest : Str) (hc : special c = true) :
    regexpCompile (backslash :: c :: rest) =
      match regexpCompile rest with
      | .ok r => .ok (.lit c :: r)
      | .error e => .error e := by
  have hp := special_is_punctuation c hc
  rw [regexpCompile.eq_def]
  split
  · rename_i h; simp at h
  · rename_i h; simp at h; exact absurd h.1 (by decide)
  · rename_i h; simp at h; exact absurd h.1 (by decide)
  · rename_i c2 rest2 _ _ h
    simp at h
    obtain ⟨rfl, rfl⟩ := h
    simp [hp]

/-- Compiling the text of a pattern gives the pattern back. -/
theorem regexpCompile_render (ts : Regexp) : regexpCompile (render ts) = .ok ts := by
  induction ts with
  | nil => rfl
  | cons tok ts ih =>
    cases tok with
    | lit c =>
      by_cases hc : special c = true
      · simp only [render, hc, if_true]
        rw [regexpCompile_escape c _ hc, ih]
      · have hc2 : special c = false := by simpa using hc
        simp only [render, hc2, Bool.false_eq_true, if_false]
        rw [regexpCompile_plain c _ hc2, ih]
    | cap =>
      simp only [render]
      rw [regexpCompile_cap, ih]
    | any =>
      simp only [render]
      rw [regexpCompile_any, ih]

theorem render_append (a b : Regexp) : render (a ++ b) = render a ++ render b := by
  induction a with
  | nil => rfl
  | cons tok a ih =>
    cases tok with
    | lit c =>
      by_cases hc : special c = true
      · simp [render, hc, ih]
      · simp [render, hc, ih]
    | cap => simp [render, ih]
    | any => simp [render, ih]

theorem render_lits (text : Str) : render (lits text) = QuoteMeta text := by
  induction text with
  | nil => rfl
  | cons c cs ih =>
    by_cases hc : special c = true
    · simp only [lits, List.map_cons, render, QuoteMeta, hc, if_true]
      rw [← ih]; rfl
    · simp only [lits, List.map_cons, render, QuoteMeta, hc, if_false]
      rw [← ih]; rfl

theorem render_lits_plain (text : Str) (h : plain text) : render (lits text) = text := by
  induction text with
  | nil => rfl
  | cons c cs ih =>
    have hc : special c = false := h c (List.mem_cons_self _ _)
    have ih2 := ih (fun d hd => h d (List.mem_cons_of_mem _ hd))
    simp only [lits, List.map_cons, render, hc, Bool.false_eq_true, if_false]
    rw [← ih2]
    simp only [lits] at ih2 ⊢
    rw [ih2, ih2]

/-! ## `strings.Index` and `strings.Replace` on pattern text -/

theorem Replace1_of_isPrefixOf {α : Type} [DecidableEq α] (old new l : List α)
    (hne : old ≠ []) (h : old.isPrefixOf l = true) :
    Replace1 old new l = new ++ l.drop old.length := by
  cases l with
  | nil =>
    cases old with
    | nil => exact absurd rfl hne
    | cons a as => simp [List.isPrefixOf] at h
  | cons c cs => simp [Replace1, h]

theorem Replace1_cons_of_not_isPrefixOf {α : Type} [DecidableEq α] (old new : List α) (c : α)
    (cs : List α) (h : old.isPrefixOf (c :: cs) = false) :
    Replace1 old new (c :: cs) = c :: Replace1 old new cs := by
  simp [Replace1, h]

theorem indexFrom_of_isPrefixOf {α : Type} [DecidableEq α] (sub l : List α) (n : Nat)
    (hne : sub ≠ []) (h : sub.isPrefixOf l = true) : indexFrom sub l n = some n := by
  cases l with
  | nil =>
    cases sub with
    | nil => exact absurd rfl hne
    | cons a as => simp [List.isPrefixOf] at h
  | cons c cs => simp [indexFrom, h]

theorem indexFrom_cons_of_not_isPrefixOf {α : Type} [DecidableEq α] (sub : List α) (c : α)
    (cs : List α) (n : Nat) (h : sub.isPrefixOf (c :: cs) = false) :
    indexFrom sub (c :: cs) n = indexFrom sub cs (n + 1) := by
  simp [indexFrom, h]

theorem lit_beq (k c : Char) : (ReTok.lit k == ReTok.lit c) = (k == c) := by
  by_cases h : k = c
  · subst h; simp
  · have h2 : ReTok.lit k ≠ ReTok.lit c := by simpa using h
    rw [beq_eq_false_iff_ne.mpr h2, beq_eq_false_iff_ne.mpr h]

/-- A plain text is a prefix of the text of a pattern exactly when its literal
nodes are a prefix of the pattern. -/
theorem isPrefixOf_render (K : Str) (hK : plain K) (ts : Regexp) :
    K.isPrefixOf (render ts) = (lits K).isPrefixOf ts := by
  induction K generalizing ts with
  | nil => simp [lits]
  | cons k K ih =>
    have hk : special k = false := hK k (List.mem_cons_self _ _)
    have ih2 := ih (fun d hd => hK d (List.mem_cons_of_mem _ hd))
    have hkb : (k == backslash) = false :=
      beq_eq_false_iff_ne.mpr (by rintro rfl; exact absurd hk (by decide))
    have hkp : (k == '(') = false :=
      beq_eq_false_iff_ne.mpr (by rintro rfl; exact absurd hk (by decide))
    have hkd : (k == '.') = false :=
      beq_eq_false_iff_ne.mpr (by rintro rfl; exact absurd hk (by decide))
    have hcap : (ReTok.lit k == ReTok.cap) = false := beq_eq_false_iff_ne.mpr (by simp)
    have hany : (ReTok.lit k == ReTok.any) = false := beq_eq_false_iff_ne.mpr (by simp)
    cases ts with
    | nil => simp [render, lits, List.isPrefixOf]
    | cons tok ts =>
      cases tok with
      | lit c =>
        by_cases hc : special c = true
        · have hkc : (k == c) = false :=
            beq_eq_false_iff_ne.mpr (by rintro rfl; rw [hk] at hc; exact absurd hc (by decide))
          simp only [render, hc, if_true, lits, List.map_cons, List.isPrefixOf, hkb, lit_beq, hkc,
            Bool.false_and]
        · have h3 := ih2 ts
          simp only [lits] at h3
          simp only [render, hc, if_false, lits, List.map_cons, List.isPrefixOf, lit_beq, h3]
      | cap =>
        simp only [render, lits, List.map_cons, List.isPrefixOf, hkp, hcap, Bool.false_and]
      | any =>
        simp only [render, lits, List.map_cons, List.isPrefixOf, hkd, hany, Bool.false_and]

/-- A plain, non-empty text does not start inside a run of special characters. -/
theorem Replace1_skip_special (K new : Str) (hK : plain K) (hne : K ≠ []) (X Y : Str)
    (hX : ∀ c ∈ X, special c = true) :
    Replace1 K new (X ++ Y) = X ++ Replace1 K new Y := by
  induction X with
  | nil => rfl
  | cons x X ih =>
    have hx : special x = true := hX x (List.mem_cons_self _ _)
    have ih2 := ih (fun d hd => hX d (List.mem_cons_of_mem _ hd))
    cases K with
    | nil => exact absurd rfl hne
    | cons k K =>
      have hk : special k = false := hK k (List.mem_cons_self _ _)
      have hkx : ¬ k = x := by rintro rfl; rw [hk] at hx; exact absurd hx (by decide)
      have hp : (k :: K).isPrefixOf (x :: (X ++ Y)) = false := by
        simp [List.isPrefixOf, hkx]
      rw [List.cons_append, Replace1_cons_of_not_isPrefixOf _ _ _ _ hp, ih2]
      rfl

theorem indexFrom_skip_special (K : Str) (hK : plain K) (hne : K ≠ []) (X Y : Str) (n : Nat)
    (hX : ∀ c ∈ X, special c = true) :
    indexFrom K (X ++ Y) n = indexFrom K Y (n + X.length) := by
  induction X generalizing n with
  | nil => rfl
  | cons x X ih =>
    have hx : special x = true := hX x (List.mem_cons_self _ _)
    have ih2 := ih (n + 1) (fun d hd => hX d (List.mem_cons_of_mem _ hd))
    cases K with
    | nil => exact absurd rfl hne
    | cons k K =>
      have hk : special k = false := hK k (List.mem_cons_self _ _)
      have hkx : ¬ k = x := by rintro rfl; rw [hk] at hx; exact absurd hx (by decide)
      have hp : (k :: K).isPrefixOf (x :: (X ++ Y)) = false := by
        simp [List.isPrefixOf, hkx]
      rw [List.cons_append, indexFrom_cons_of_not_isPrefixOf _ _ _ _ hp, ih2]
      congr 1
      simp only [List.length_cons]
      omega

theorem render_cons (tok : ReTok) (ts : Regexp) :
    render (tok :: ts) = render [tok] ++ render ts :=
  render_append [tok] ts

/-- The text of one node is a run of special characters, or one plain
character. -/
theorem render_singleton_cases (tok : ReTok) :
    (∀ c ∈ render [tok], special c = true) ∨
    (∃ c : Char, special c = false ∧ tok = .lit c ∧ render [tok] = [c]) := by
  cases tok with
  | lit c =>
    by_cases hc : special c = true
    · left
      intro d hd
      simp [render, hc] at hd
      rcases hd with rfl | rfl
      · decide
      · exact hc
    · right
      exact ⟨c, by simpa using hc, rfl, by simp [render, hc]⟩
  | cap =>
    left
    simp only [render]
    decide
  | any =>
    left
    simp only [render]
    decide

theorem lits_ne_nil (K : Str) (hne : K ≠ []) : lits K ≠ [] := by
  cases K with
  | nil => exact absurd rfl hne
  | cons k K => simp [lits]

/-- `strings.Replace` on the text of a pattern replaces the literal nodes of a
plain text in the pattern. -/
theorem Replace1_render (K : Str) (hK : plain K) (hne : K ≠ []) (W ts : Regexp) :
    Replace1 K (render W) (render ts) = render (Replace1 (lits K) W ts) := by
  induction ts with
  | nil => simp [Replace1, render, hne, lits_ne_nil K hne]
  | cons tok ts ih =>
    by_cases hp : (lits K).isPrefixOf (tok :: ts) = true
    · have hp2 : K.isPrefixOf (render (tok :: ts)) = true := by
        rw [isPrefixOf_render K hK]; exact hp
      rw [Replace1_of_isPrefixOf K _ _ hne hp2,
        Replace1_of_isPrefixOf (lits K) _ _ (lits_ne_nil K hne) hp, render_append]
      obtain ⟨rest, hrest⟩ := List.isPrefixOf_iff_prefix.mp hp
      rw [← hrest, render_append, render_lits_plain K hK]
      simp [lits]
    · have hp1 : (lits K).isPrefixOf (tok :: ts) = false := Bool.eq_false_iff.mpr hp
      have hp2 : K.isPrefixOf (render (tok :: ts)) = false := by
        rw [isPrefixOf_render K hK]; exact hp1
      rw [Replace1_cons_of_not_isPrefixOf _ _ _ _ hp1, render_cons tok (Replace1 _ _ _), ← ih]
      rcases render_singleton_cases tok with hX | ⟨c, hc, htok, hrc⟩
      · rw [render_cons, Replace1_skip_special K _ hK hne _ _ hX]
      · rw [render_cons, hrc] at hp2 ⊢
        exact Replace1_cons_of_not_isPrefixOf _ _ _ _ hp2

theorem indexFrom_render (K : Str) (hK : plain K) (hne : K ≠ []) (ts : Regexp) (n m : Nat) :
    (indexFrom K (render ts) n).isSome = (indexFrom (lits K) ts m).isSome := by
  induction ts generalizing n m with
  | nil => simp [indexFrom, render, hne, lits_ne_nil K hne]
  | cons tok ts ih =>
    by_cases hp : (lits K).isPrefixOf (tok :: ts) = true
    · have hp2 : K.isPrefixOf (render (tok :: ts)) = true := by
        rw [isPrefixOf_render K hK]; exact hp
      rw [indexFrom_of_isPrefixOf K _ _ hne hp2,
        indexFrom_of_isPrefixOf (lits K) _ _ (lits_ne_nil K hne) hp]
      rfl
    · have hp1 : (lits K).isPrefixOf (tok :: ts) = false := Bool.eq_false_iff.mpr hp
      have hp2 : K.isPrefixOf (render (tok :: ts)) = false := by
        rw [isPrefixOf_render K hK]; exact hp1
      rw [indexFrom_cons_of_not_isPrefixOf _ _ _ _ hp1]
      rcases render_singleton_cases tok with hX | ⟨c, hc, htok, hrc⟩
      · rw [render_cons, indexFrom_skip_special K hK hne _ _ _ hX]
        exact ih _ _
      · rw [render_cons, hrc] at hp2 ⊢
        rw [List.singleton_append] at hp2 ⊢
        rw [indexFrom_cons_of_not_isPrefixOf _ _ _ _ hp2]
        exact ih _ _

theorem Index_ne_neg_one (text sub : Str) :
    Index text sub ≠ -1 ↔ (indexFrom sub text 0).isSome = true := by
  unfold Index
  cases h : indexFrom sub text 0 with
  | none => simp
  | some n =>
    simp only [Option.isSome_some, iff_true]
    omega

/-- The loop of `buildRegexp` on the text of a pattern does what `buildLoopT`
does on the pattern. -/
theorem buildLoop_render (vs : List Str) (hvs : ∀ v ∈ vs, plain v ∧ v ≠ []) (s : system)
    (ts : Regexp) (found : Bool) :
    buildLoop vs s (render ts) found =
      match buildLoopT vs s ts found with
      | .inl s1 => .inl s1
      | .inr (s1, ts1) => .inr (s1, render ts1) := by
  induction vs generalizing s ts found with
  | nil => rfl
  | cons v vs ih =>
    obtain ⟨hv, hvne⟩ := hvs v (List.mem_cons_self _ _)
    have ih2 := ih (fun u hu => hvs u (List.mem_cons_of_mem _ hu))
    have hidx : (Index (render ts) v ≠ -1) ↔ (indexFrom (lits v) ts 0).isSome = true := by
      rw [Index_ne_neg_one, indexFrom_render v hv hvne ts 0 0]
    have hcap : "(.+?)".toList = render [ReTok.cap] := by decide
    have hany : ".+?".toList = render [ReTok.any] := by decide
    unfold buildLoop buildLoopT
    by_cases hcmd : s.Command = v
    · simp only [hcmd, if_true]
    · rw [if_neg hcmd, if_neg hcmd]
      by_cases hi : (indexFrom (lits v) ts 0).isSome = true
      · rw [if_pos (hidx.mpr hi), if_pos hi]
        cases found with
        | false =>
          simp only [Bool.not_false, if_true]
          rw [hcap, Replace1_render v hv hvne, ih2]
        | true =>
          simp only [Bool.not_true, Bool.false_eq_true, if_false]
          rw [hany, Replace1_render v hv hvne, ih2]
      · rw [if_neg (fun h => hi (hidx.mp h)), if_neg hi]
        exact ih2 _ _ _

theorem vars_plain : ∀ v ∈ vars, plain v ∧ v ≠ [] := by
  intro v hv
  simp only [vars, List.mem_cons, List.mem_singleton, List.not_mem_nil, or_false] at hv
  rcases hv with rfl | rfl | rfl
  · exact ⟨by unfold plain; decide, by decide⟩
  · exact ⟨by unfold plain; decide, by decide⟩
  · exact ⟨by unfold plain; decide, by decide⟩

/-- `buildRegexp` in terms of `buildLoopT`: the compiled pattern is the pattern
the loop leaves, between two NUL bytes, and compiling never fails. -/
theorem buildRegexp_eq (s : system) :
    buildRegexp s =
      match buildLoopT vars s (lits s.Command) false with
      | .inl s1 => (s1, none)
      | .inr (s1, ts) => ({ s1 with re := some (.lit NUL :: ts ++ [.lit NUL]) }, none) := by
  unfold buildRegexp
  rw [← render_lits, buildLoop_render vars vars_plain]
  cases h : buildLoopT vars s (lits s.Command) false with
  | inl s1 => rfl
  | inr r =>
    obtain ⟨s1, ts⟩ := r
    have hr : NUL :: render ts ++ [NUL] = render (.lit NUL :: ts ++ [.lit NUL]) := by
      have h0 : special NUL = false := by decide
      rw [show (ReTok.lit NUL :: ts ++ [ReTok.lit NUL]) = [ReTok.lit NUL] ++ ts ++ [ReTok.lit NUL]
        from rfl, render_append, render_append]
      simp [render, h0]
    simp only [hr, regexpCompile_render]

/-! ## Occurrences of a placeholder in a template -/

theorem indexFrom_isSome_iff {α : Type} [DecidableEq α] (sub l : List α) (n : Nat) :
    (indexFrom sub l n).isSome = true ↔ sub <:+: l := by
  induction l generalizing n with
  | nil =>
    by_cases h : sub = []
    · simp [indexFrom, h]
    · simp [indexFrom, h]
  | cons c cs ih =>
    rw [List.infix_cons_iff]
    by_cases hp : sub.isPrefixOf (c :: cs) = true
    · simp only [indexFrom, hp, if_true, Option.isSome_some, true_iff]
      exact Or.inl (List.isPrefixOf_iff_prefix.mp hp)
    · have hp2 : ¬ sub <+: c :: cs := fun h => hp (List.isPrefixOf_iff_prefix.mpr h)
      simp only [indexFrom, hp, if_false, Bool.false_eq_true]
      rw [ih]
      simp [hp2]

/-- Replacing the first occurrence, when the occurrence after `A` is the first. -/
theorem Replace1_leftmost {α : Type} [DecidableEq α] (P C A B : List α) (hne : P ≠ [])
    (h : ∀ a b : List α, A ++ P ++ B = a ++ P ++ b → A.length ≤ a.length) :
    Replace1 P C (A ++ P ++ B) = A ++ C ++ B := by
  induction A with
  | nil =>
    have hp : P.isPrefixOf ([] ++ P ++ B) = true :=
      List.isPrefixOf_iff_prefix.mpr ⟨B, by simp⟩
    rw [Replace1_of_isPrefixOf P C _ hne hp]
    simp
  | cons x A ih =>
    have hp : P.isPrefixOf (x :: (A ++ P ++ B)) = false := by
      apply Bool.eq_false_iff.mpr
      intro hpre
      obtain ⟨b, hb⟩ := List.isPrefixOf_iff_prefix.mp hpre
      have := h [] b (by simpa using hb.symm)
      simp at this
    have ih2 := ih (fun a b hab => by
      have := h (x :: a) b (by simp [hab])
      simpa using this)
    have e1 : (x :: A) ++ P ++ B = x :: (A ++ P ++ B) := by simp
    rw [e1, Replace1_cons_of_not_isPrefixOf _ _ _ _ hp, ih2]
    simp

theorem prefix_of_prefix_append_cons {α : Type} (x : α) (L A B : List α) (hx : x ∉ L)
    (h : L <+: A ++ x :: B) : L <+: A := by
  induction A generalizing L with
  | nil =>
    cases L with
    | nil => exact List.prefix_refl _
    | cons l L =>
      simp only [List.nil_append, List.cons_prefix_cons] at h
      exact absurd (List.mem_cons.mpr (Or.inl h.1.symm)) hx
  | cons a A ih =>
    cases L with
    | nil => exact List.nil_prefix
    | cons l L =>
      simp only [List.cons_append, List.cons_prefix_cons] at h ⊢
      exact ⟨h.1, ih L (fun hm => hx (List.mem_cons_of_mem _ hm)) h.2⟩

/-- A list without `x` that occurs in `A ++ x :: B` occurs in `A` or in `B`. -/
theorem infix_of_infix_append_cons {α : Type} (x : α) (L A B : List α) (hx : x ∉ L)
    (h : L <:+: A ++ x :: B) : L <:+: A ∨ L <:+: B := by
  induction A with
  | nil =>
    rw [List.nil_append, List.infix_cons_iff] at h
    rcases h with h | h
    · have h2 : L <+: [] := prefix_of_prefix_append_cons x L [] B hx (by simpa using h)
      exact Or.inl h2.isInfix
    · exact Or.inr h
  | cons a A ih =>
    rw [List.cons_append, List.infix_cons_iff] at h
    rcases h with h | h
    · have h2 : L <+: a :: A := prefix_of_prefix_append_cons x L (a :: A) B hx (by simpa using h)
      exact Or.inl h2.isInfix
    · rcases ih h with h3 | h3
      · exact Or.inl (List.infix_cons h3)
      · exact Or.inr h3

theorem lits_injective : Function.Injective lits := by
  intro a b hab
  exact List.map_injective_iff.mpr (fun x y hxy => by injection hxy) hab

theorem lits_append (a b : Str) : lits (a ++ b) = lits a ++ lits b := by
  simp [lits]

theorem cap_not_mem_lits (K : Str) : ReTok.cap ∉ lits K := by
  simp [lits]

theorem any_not_mem_lits (K : Str) : ReTok.any ∉ lits K := by
  simp [lits]

/-- An occurrence of literal nodes in the literal nodes of a text is an
occurrence in the text. -/
theorem lits_split (K text : Str) (a b : Regexp) (h : lits text = a ++ lits K ++ b) :
    ∃ a0 b0 : Str, text = a0 ++ K ++ b0 ∧ a = lits a0 ∧ b = lits b0 := by
  unfold lits at h
  obtain ⟨l1, b0, h1, h2, h3⟩ := List.map_eq_append_iff.mp h
  obtain ⟨a0, k0, h4, h5, h6⟩ := List.map_eq_append_iff.mp h2
  have hk : k0 = K := lits_injective h6
  subst hk
  exact ⟨a0, b0, by rw [h1, h4], h5.symm, h3.symm⟩

theorem lits_occurs_iff (K text : Str) : lits K <:+: lits text ↔ K <:+: text := by
  constructor
  · rintro ⟨a, b, h⟩
    obtain ⟨a0, b0, h1, _, _⟩ := lits_split K text a b h.symm
    exact ⟨a0, b0, h1.symm⟩
  · rintro ⟨a, b, h⟩
    exact ⟨lits a, lits b, by rw [← h]; simp [lits]⟩

/-! ## The loop of `buildRegexp` on patterns -/

theorem buildLoopT_absent (vs : List Str) (s : system) (ts : Regexp) (found : Bool)
    (h : ∀ K ∈ vs, s.Command ≠ K ∧ ¬ lits K <:+: ts) :
    buildLoopT vs s ts found = .inr (s, ts) := by
  induction vs with
  | nil => rfl
  | cons v vs ih =>
    obtain ⟨h1, h2⟩ := h v (List.mem_cons_self _ _)
    have h3 : ¬ (indexFrom (lits v) ts 0).isSome = true :=
      fun hh => h2 ((indexFrom_isSome_iff _ _ _).mp hh)
    unfold buildLoopT
    rw [if_neg h1, if_neg h3]
    exact ih (fun K hK => h K (List.mem_cons_of_mem _ hK))

theorem buildLoopT_append_absent (vs1 vs2 : List Str) (s : system) (ts : Regexp) (found : Bool)
    (h : ∀ K ∈ vs1, s.Command ≠ K ∧ ¬ lits K <:+: ts) :
    buildLoopT (vs1 ++ vs2) s ts found = buildLoopT vs2 s ts found := by
  induction vs1 with
  | nil => rfl
  | cons v vs ih =>
    obtain ⟨h1, h2⟩ := h v (List.mem_cons_self _ _)
    have h3 : ¬ (indexFrom (lits v) ts 0).isSome = true :=
      fun hh => h2 ((indexFrom_isSome_iff _ _ _).mp hh)
    rw [List.cons_append, buildLoopT, if_neg h1, if_neg h3]
    exact ih (fun K hK => h K (List.mem_cons_of_mem _ hK))

theorem buildLoopT_present (v : Str) (vs : List Str) (s : system) (ts : Regexp) (found : Bool)
    (h1 : s.Command ≠ v) (h2 : lits v <:+: ts) :
    buildLoopT (v :: vs) s ts found =
      if found = false then buildLoopT vs { s with v := v } (Replace1 (lits v) [ReTok.cap] ts) true
      else buildLoopT vs s (Replace1 (lits v) [ReTok.any] ts) found := by
  have h3 : (indexFrom (lits v) ts 0).isSome = true := (indexFrom_isSome_iff _ _ _).mpr h2
  rw [buildLoopT, if_neg h1, if_pos h3]
  cases found <;> simp

/-! ## Matching -/

theorem matchHere_lits (text rest : Str) (ts : Regexp) :
    matchHere (text ++ rest) (lits text ++ ts) =
      match matchHere rest ts with
      | some r => some (text ++ r.1, r.2)
      | none => none := by
  induction text with
  | nil =>
    show matchHere rest ts = _
    cases matchHere rest ts <;> rfl
  | cons c text ih =>
    simp only [lits, List.map_cons, List.cons_append] at ih ⊢
    rw [matchHere]
    rw [if_pos rfl, ih]
    cases matchHere rest ts <;> rfl

theorem matchHere_lits_some (text xs : Str) (ts : Regexp) (r : Str × List Str)
    (h : matchHere xs (lits text ++ ts) = some r) : text <+: xs := by
  induction text generalizing xs r with
  | nil => exact List.nil_prefix
  | cons c text ih =>
    cases xs with
    | nil => simp [lits, matchHere] at h
    | cons x xs =>
      simp only [lits, List.map_cons, List.cons_append] at h ih
      rw [matchHere] at h
      by_cases hxc : x = c
      · rw [if_pos hxc] at h
        cases hm : matchHere xs (List.map ReTok.lit text ++ ts) with
        | none => rw [hm] at h; exact absurd h (by simp)
        | some r1 =>
          rw [hxc, List.cons_prefix_cons]
          exact ⟨rfl, ih xs r1 hm⟩
      · rw [if_neg hxc] at h
        exact absurd h (by simp)

/-- The closing NUL of an argument cannot be found earlier: after a non-empty
text without NUL, `post` followed by NUL is not a prefix. -/
theorem not_prefix_shifted (v2 post tail : Str) (hv2 : v2 ≠ []) (hv : NUL ∉ v2)
    (hpost : NUL ∉ post) : ¬ (post ++ [NUL]) <+: (v2 ++ post ++ [NUL] ++ tail) := by
  intro hpre
  have h1 := List.prefix_iff_eq_take.mp hpre
  have hlen : (post ++ [NUL]).length ≤ (v2 ++ post).length := by
    have : 0 < v2.length := List.length_pos.mpr hv2
    simp only [List.length_append, List.length_singleton]
    omega
  have h2 : List.take (post ++ [NUL]).length (v2 ++ post ++ [NUL] ++ tail)
      = List.take (post ++ [NUL]).length (v2 ++ post) := by
    rw [List.append_assoc (v2 ++ post), List.take_append_of_le_length hlen]
  have h3 : NUL ∈ List.take (post ++ [NUL]).length (v2 ++ post) := by
    rw [← h2, ← h1]
    simp
  have h4 : NUL ∈ v2 ++ post := List.mem_of_mem_take h3
  rcases List.mem_append.mp h4 with h5 | h5
  · exact hv h5
  · exact hpost h5

theorem matchHere_tail_none (v2 post tail : Str) (hv2 : v2 ≠ []) (hv : NUL ∉ v2)
    (hpost : NUL ∉ post) :
    matchHere (v2 ++ post ++ [NUL] ++ tail) (lits post ++ [ReTok.lit NUL]) = none := by
  cases hm : matchHere (v2 ++ post ++ [NUL] ++ tail) (lits post ++ [ReTok.lit NUL]) with
  | none => rfl
  | some r =>
    have h1 : matchHere (v2 ++ post ++ [NUL] ++ tail) (lits (post ++ [NUL]) ++ []) = some r := by
      rw [lits_append]; simpa [lits] using hm
    exact absurd (matchHere_lits_some _ _ _ _ h1) (not_prefix_shifted v2 post tail hv2 hv hpost)

/-- The capturing group takes exactly `v` when the rest of the pattern matches
after `v` and after no shorter non-empty part of `v`. -/
theorem matchHere_cap_exact (v rest : Str) (ts : Regexp) (r : Str × List Str)
    (hne : v ≠ []) (hnl : newline ∉ v) (hrest : matchHere rest ts = some r)
    (hshort : ∀ v1 v2 : Str, v = v1 ++ v2 → v1 ≠ [] → v2 ≠ [] → matchHere (v2 ++ rest) ts = none) :
    matchHere (v ++ rest) (ReTok.cap :: ts) = some (v ++ r.1, v :: r.2) := by
  induction v with
  | nil => exact absurd rfl hne
  | cons x v ih =>
    have hx : ¬ x = newline := fun h => hnl (h ▸ List.mem_cons_self _ _)
    rw [List.cons_append, matchHere, if_neg hx]
    cases v with
    | nil =>
      simp only [List.nil_append, hrest]
      rfl
    | cons y v =>
      have h1 : matchHere ((y :: v) ++ rest) ts = none :=
        hshort [x] (y :: v) rfl (by simp) (by simp)
      have h2 := ih (by simp) (fun h => hnl (List.mem_cons_of_mem _ h))
        (fun v1 v2 hv h1 h2 => hshort (x :: v1) v2 (by rw [hv]; rfl) (by simp) h2)
      rw [h1, h2]
      rfl

/-- The non-capturing wildcard takes exactly `v` under the same conditions. -/
theorem matchHere_any_exact (v rest : Str) (ts : Regexp) (r : Str × List Str)
    (hne : v ≠ []) (hnl : newline ∉ v) (hrest : matchHere rest ts = some r)
    (hshort : ∀ v1 v2 : Str, v = v1 ++ v2 → v1 ≠ [] → v2 ≠ [] → matchHere (v2 ++ rest) ts = none) :
    matchHere (v ++ rest) (ReTok.any :: ts) = some (v ++ r.1, r.2) := by
  induction v with
  | nil => exact absurd rfl hne
  | cons x v ih =>
    have hx : ¬ x = newline := fun h => hnl (h ▸ List.mem_cons_self _ _)
    rw [List.cons_append, matchHere, if_neg hx]
    cases v with
    | nil =>
      simp only [List.nil_append, hrest]
      rfl
    | cons y v =>
      have h1 : matchHere ((y :: v) ++ rest) ts = none :=
        hshort [x] (y :: v) rfl (by simp) (by simp)
      have h2 := ih (by simp) (fun h => hnl (List.mem_cons_of_mem _ h))
        (fun v1 v2 hv h1 h2 => hshort (x :: v1) v2 (by rw [hv]; rfl) (by simp) h2)
      rw [h1, h2]
      rfl

theorem FindStringSubmatch_at_start (re : Regexp) (x : Char) (xs : Str) (r : Str × List Str)
    (h : matchHere (x :: xs) re = some r) :
    FindStringSubmatch re (x :: xs) = some (r.1 :: r.2) := by
  simp [FindStringSubmatch, h]

/-! ## Templates with one placeholder -/

theorem matchHere_nil_nil : matchHere [] [] = some ([], []) := rfl

/-- The pattern of a template with one placeholder, on an argument in which
`v` stands for the placeholder: the group captures `v`. -/
theorem matchHere_single (pre v post : Str) (hv : v ≠ []) (hvN : NUL ∉ v) (hvnl : newline ∉ v)
    (hpostN : NUL ∉ post) :
    matchHere (NUL :: pre ++ v ++ post ++ [NUL])
        (.lit NUL :: (lits pre ++ .cap :: lits post) ++ [.lit NUL])
      = some (NUL :: pre ++ v ++ post ++ [NUL], [v]) := by
  have htail : matchHere (post ++ [NUL]) (lits post ++ [ReTok.lit NUL])
      = some (post ++ [NUL], []) := by
    have h := matchHere_lits (post ++ [NUL]) [] []
    rw [matchHere_nil_nil] at h
    simpa [lits] using h
  have hcap : matchHere (v ++ (post ++ [NUL])) (ReTok.cap :: (lits post ++ [ReTok.lit NUL]))
      = some (v ++ (post ++ [NUL]), [v]) := by
    have h := matchHere_cap_exact v (post ++ [NUL]) (lits post ++ [ReTok.lit NUL])
      (post ++ [NUL], []) hv hvnl htail
      (fun v1 v2 hsplit _ h2 => by
        have hN : NUL ∉ v2 := fun hm => hvN (by rw [hsplit]; exact List.mem_append_right _ hm)
        have h3 := matchHere_tail_none v2 post [] h2 hN hpostN
        simpa using h3)
    exact h
  have h := matchHere_lits (NUL :: pre) (v ++ (post ++ [NUL]))
    (ReTok.cap :: (lits post ++ [ReTok.lit NUL]))
  rw [hcap] at h
  simpa [lits] using h

theorem mem_vars_split (P : Str) (hP : P ∈ vars) :
    ∃ before after : List Str, vars = before ++ P :: after ∧ P ∉ before ∧ P ∉ after := by
  simp only [vars, List.mem_cons, List.mem_singleton, List.not_mem_nil, or_false] at hP
  rcases hP with rfl | rfl | rfl
  · exact ⟨[], [BASENAME, ROM_RAW], rfl, by decide, by decide⟩
  · exact ⟨[ROM], [ROM_RAW], rfl, by decide, by decide⟩
  · exact ⟨[ROM, BASENAME], [], rfl, by decide, by decide⟩

/-- What `buildRegexp` makes of a template whose only placeholder occurrence
is `P` between the literal texts `pre` and `post`. -/
theorem buildRegexp_single (s : system) (pre post P : Str) (hP : P ∈ vars)
    (hcmd : s.Command = pre ++ P ++ post) (hlit : pre ≠ [] ∨ post ≠ [])
    (honly : ∀ K ∈ vars, ∀ a b : Str, pre ++ P ++ post = a ++ K ++ b → K = P ∧ a = pre) :
    buildRegexp s =
      ({ s with v := P, re := some (.lit NUL :: (lits pre ++ .cap :: lits post) ++ [.lit NUL]) },
        none) := by
  obtain ⟨before, after, hsplit, hPb, hPa⟩ := mem_vars_split P hP
  have hPne : P ≠ [] := (vars_plain P hP).2
  have hne : ∀ K ∈ vars, s.Command ≠ K := by
    intro K hK heq
    have h1 := honly K hK [] [] (by rw [← hcmd, heq]; simp)
    have h2 : pre = [] := h1.2.symm
    have h3 : post = [] := by
      have h4 := congrArg List.length (hcmd.symm.trans heq)
      rw [h1.1, h2] at h4
      simp at h4
      exact h4
    rcases hlit with h | h
    · exact h h2
    · exact h h3
  have habs : ∀ K ∈ vars, K ≠ P → ¬ lits K <:+: lits s.Command := by
    intro K hK hKP hin
    obtain ⟨a, b, hab⟩ := (lits_occurs_iff K s.Command).mp hin
    exact hKP (honly K hK a b (by rw [← hcmd, hab])).1
  have habs2 : ∀ K ∈ vars, K ≠ P → ¬ lits K <:+: lits pre ++ ReTok.cap :: lits post := by
    intro K hK hKP hin
    rcases infix_of_infix_append_cons _ _ _ _ (cap_not_mem_lits K) hin with h | h
    · obtain ⟨a, b, hab⟩ := (lits_occurs_iff K pre).mp h
      exact hKP (honly K hK a (b ++ P ++ post) (by rw [← hab]; simp)).1
    · obtain ⟨a, b, hab⟩ := (lits_occurs_iff K post).mp h
      exact hKP (honly K hK (pre ++ P ++ a) b (by rw [← hab]; simp)).1
  have hrep : Replace1 (lits P) [ReTok.cap] (lits s.Command)
      = lits pre ++ ReTok.cap :: lits post := by
    rw [hcmd, lits_append, lits_append,
      Replace1_leftmost (lits P) [ReTok.cap] (lits pre) (lits post) (lits_ne_nil P hPne)]
    · simp
    · intro a b hab
      rw [← lits_append, ← lits_append] at hab
      obtain ⟨a0, b0, h1, h2, _⟩ := lits_split P _ a b hab
      have h3 := (honly P hP a0 b0 h1).2
      rw [h2, h3]
  have hloop : buildLoopT vars s (lits s.Command) false
      = .inr ({ s with v := P }, lits pre ++ ReTok.cap :: lits post) := by
    rw [hsplit, buildLoopT_append_absent before (P :: after) s _ false
      (fun K hK => ⟨hne K (by rw [hsplit]; exact List.mem_append_left _ hK),
        habs K (by rw [hsplit]; exact List.mem_append_left _ hK)
          (fun h => hPb (h ▸ hK))⟩),
      buildLoopT_present P after s _ false (hne P hP)
        ((lits_occurs_iff P s.Command).mpr ⟨pre, post, hcmd.symm⟩)]
    simp only [if_true, hrep]
    exact buildLoopT_absent after _ _ true
      (fun K hK => ⟨hne K (by rw [hsplit]; exact List.mem_append_right _ (List.mem_cons_of_mem _ hK)),
        habs2 K (by rw [hsplit]; exact List.mem_append_right _ (List.mem_cons_of_mem _ hK))
          (fun h => hPa (h ▸ hK))⟩)
  rw [buildRegexp_eq, hloop]

theorem mem_placeholdersFrom (K : Str) (hK : K ∈ vars) (a b : Str) (n : Nat) :
    (n + a.length, K) ∈ placeholdersFrom (a ++ K ++ b) n := by
  induction a generalizing n with
  | nil =>
    have hne : K ≠ [] := (vars_plain K hK).2
    cases K with
    | nil => exact absurd rfl hne
    | cons k K =>
      have hp : (k :: K).isPrefixOf (k :: (K ++ b)) = true :=
        List.isPrefixOf_iff_prefix.mpr ⟨b, by simp⟩
      simp only [List.nil_append, List.cons_append, placeholdersFrom, List.length_nil,
        Nat.add_zero, List.mem_append, List.mem_map, List.mem_filter]
      exact Or.inl ⟨k :: K, ⟨hK, hp⟩, rfl⟩
  | cons x a ih =>
    simp only [List.cons_append, placeholdersFrom, List.mem_append, List.length_cons]
    right
    have h := ih (n + 1)
    have e : n + 1 + a.length = n + (a.length + 1) := by omega
    rw [e] at h
    simpa using h

/-- A computable test for "the only placeholder occurrence of the template is
`P` after `pre`". -/
theorem only_occurrence_of_placeholders (pre P post : Str)
    (h : placeholdersFrom (pre ++ P ++ post) 0 = [(pre.length, P)]) :
    ∀ K ∈ vars, ∀ a b : Str, pre ++ P ++ post = a ++ K ++ b → K = P ∧ a = pre := by
  intro K hK a b hab
  have hm := mem_placeholdersFrom K hK a b 0
  rw [← hab, h] at hm
  simp only [Nat.zero_add, List.mem_singleton, Prod.mk.injEq] at hm
  obtain ⟨hlen, rfl⟩ := hm
  refine ⟨rfl, ?_⟩
  have h2 : pre ++ (K ++ post) = a ++ (K ++ b) := by simpa using hab
  exact (List.append_inj h2 hlen.symm).1.symm

theorem unslash_of_no_backslash (v : Str) (b : Bool) (h : backslash ∉ v) :
    unslash b v = v := by
  induction v generalizing b with
  | nil => rfl
  | cons x v ih =>
    have hx : ¬ x = backslash := fun hx => h (hx ▸ List.mem_cons_self _ _)
    simp only [unslash, hx, false_and, if_false]
    rw [ih false (fun hm => h (List.mem_cons_of_mem _ hm))]

/-- C9, as stated, fails: for the template `emu %ROM%` and the value `a\b`
(with one backslash) `Match` returns `ab`, not the value. -/
theorem rom_value_with_backslash_is_changed :
    emuSys = (buildRegexp { Name := "snes".toList, Command := "emu ".toList ++ ROM ++ [] }).1 ∧
    (∀ K ∈ vars, ¬ K <:+: "emu ".toList) ∧ NUL ∉ "emu ".toList ∧
    NUL ∉ ['a', backslash, 'b'] ∧ newline ∉ ['a', backslash, 'b'] ∧
    Match emuSys (NUL :: "emu ".toList ++ ['a', backslash, 'b'] ++ [] ++ [NUL])
      = some (['a', 'b'], none) ∧
    Match emuSys (NUL :: "emu ".toList ++ ['a', backslash, 'b'] ++ [] ++ [NUL])
      ≠ some (['a', backslash, 'b'], none) := by
  decide

/-- C9 (amended): for a freshly loaded descriptor with template
`pre ++ P ++ post`, where `P` is one of the three tokens and is the only
placeholder occurrence of the template, `pre` and `post` are not both empty
and `post` has no NUL, and for every non-empty value `v` without NUL and
newline, `buildRegexp` succeeds and `Match` on `NUL ++ pre ++ v ++ post ++ NUL`
returns `v` with its escaping backslashes removed when `P` is `%ROM%`, and
exactly `v` otherwise; so it returns exactly `v` whenever `P` is not `%ROM%` or
`v` has no backslash. -/
theorem single_placeholder_value_extracted (s : system) (pre post P v : Str)
    (hskip : s.skip = false) (hP : P ∈ vars)
    (hcmd : s.Command = pre ++ P ++ post) (hlit : pre ≠ [] ∨ post ≠ [])
    (honly : ∀ K ∈ vars, ∀ a b : Str, pre ++ P ++ post = a ++ K ++ b → K = P ∧ a = pre)
    (hpostN : NUL ∉ post) (hv : v ≠ []) (hvN : NUL ∉ v) (hvnl : newline ∉ v) :
    (buildRegexp s).2 = none ∧
    Match (buildRegexp s).1 (NUL :: pre ++ v ++ post ++ [NUL])
      = some (if P = ROM then unslash false v else v, none) ∧
    (P ≠ ROM ∨ backslash ∉ v →
      Match (buildRegexp s).1 (NUL :: pre ++ v ++ post ++ [NUL]) = some (v, none)) := by
  have hb := buildRegexp_single s pre post P hP hcmd hlit honly
  have hfind : FindStringSubmatch
      (ReTok.lit NUL :: (lits pre ++ ReTok.cap :: lits post) ++ [ReTok.lit NUL])
      (NUL :: pre ++ v ++ post ++ [NUL]) = some [NUL :: pre ++ v ++ post ++ [NUL], v] :=
    FindStringSubmatch_at_start _ NUL (pre ++ v ++ post ++ [NUL]) _
      (matchHere_single pre v post hv hvN hvnl hpostN)
  have hmatch : Match (buildRegexp s).1 (NUL :: pre ++ v ++ post ++ [NUL])
      = some (if P = ROM then unslash false v else v, none) := by
    rw [hb]
    unfold Match
    simp only [hskip, Bool.false_eq_true, if_false]
    rw [hfind]
    by_cases hrom : P = ROM
    · simp [hrom]
    · simp [hrom]
  refine ⟨by rw [hb], hmatch, ?_⟩
  intro h
  rw [hmatch]
  rcases h with h | h
  · rw [if_neg h]
  · rw [unslash_of_no_backslash v false h]
    simp

/-- Witness of C9 (amended): the template `emu %BASENAME%` and the value
`Game`. -/
theorem single_placeholder_value_extracted_witness :
    (buildRegexp { Command := "emu ".toList ++ BASENAME ++ [] }).2 = none ∧
    Match (buildRegexp { Command := "emu ".toList ++ BASENAME ++ [] }).1
        (NUL :: "emu ".toList ++ "Game".toList ++ [] ++ [NUL])
      = some (if BASENAME = ROM then unslash false "Game".toList else "Game".toList, none) ∧
    (BASENAME ≠ ROM ∨ backslash ∉ "Game".toList →
      Match (buildRegexp { Command := "emu ".toList ++ BASENAME ++ [] }).1
        (NUL :: "emu ".toList ++ "Game".toList ++ [] ++ [NUL]) = some ("Game".toList, none)) :=
  single_placeholder_value_extracted { Command := "emu ".toList ++ BASENAME ++ [] }
    "emu ".toList [] BASENAME "Game".toList rfl (by decide) rfl (Or.inl (by decide))
    (only_occurrence_of_placeholders "emu ".toList BASENAME [] (by decide))
    (by decide) (by decide) (by decide) (by decide)

/-! ## Templates with two placeholders of different kinds -/

theorem Replace1_past_cons {α : Type} [DecidableEq α] (P C A Y : List α) (x : α)
    (hne : P ≠ []) (hx : x ∉ P) (hA : ¬ P <:+: A) :
    Replace1 P C (A ++ x :: Y) = A ++ x :: Replace1 P C Y := by
  induction A with
  | nil =>
    have hp : P.isPrefixOf (x :: Y) = false := by
      apply Bool.eq_false_iff.mpr
      intro h
      have h2 := prefix_of_prefix_append_cons x P [] Y hx (List.isPrefixOf_iff_prefix.mp h)
      exact hne (List.prefix_nil.mp h2)
    rw [List.nil_append, Replace1_cons_of_not_isPrefixOf _ _ _ _ hp]
    rfl
  | cons a A ih =>
    have hp : P.isPrefixOf (a :: (A ++ x :: Y)) = false := by
      apply Bool.eq_false_iff.mpr
      intro h
      have h2 := prefix_of_prefix_append_cons x P (a :: A) Y hx (List.isPrefixOf_iff_prefix.mp h)
      exact hA h2.isInfix
    rw [List.cons_append, Replace1_cons_of_not_isPrefixOf _ _ _ _ hp,
      ih (fun h => hA (List.infix_cons h))]
    rfl

theorem Replace1_before_cons {α : Type} [DecidableEq α] (P C X Y : List α) (x : α)
    (hne : P ≠ []) (hx : x ∉ P) (hX : P <:+: X) :
    Replace1 P C (X ++ x :: Y) = Replace1 P C X ++ x :: Y := by
  induction X with
  | nil => exact absurd (List.infix_nil.mp hX) hne
  | cons a X ih =>
    by_cases hp : P.isPrefixOf (a :: X) = true
    · have hp2 : P.isPrefixOf (a :: X ++ x :: Y) = true :=
        List.isPrefixOf_iff_prefix.mpr
          ((List.isPrefixOf_iff_prefix.mp hp).trans (List.prefix_append _ _))
      have hlen : P.length ≤ (a :: X).length := (List.isPrefixOf_iff_prefix.mp hp).length_le
      rw [Replace1_of_isPrefixOf P C _ hne hp2, Replace1_of_isPrefixOf P C _ hne hp,
        List.drop_append_of_le_length hlen, List.append_assoc]
    · have hp1 : P.isPrefixOf (a :: X) = false := Bool.eq_false_iff.mpr hp
      have hp2 : P.isPrefixOf (a :: (X ++ x :: Y)) = false := by
        apply Bool.eq_false_iff.mpr
        intro h
        exact hp (List.isPrefixOf_iff_prefix.mpr
          (prefix_of_prefix_append_cons x P (a :: X) Y hx (List.isPrefixOf_iff_prefix.mp h)))
      have hX2 : P <:+: X := by
        rcases List.infix_cons_iff.mp hX with h | h
        · exact absurd (List.isPrefixOf_iff_prefix.mpr h) hp
        · exact h
      rw [List.cons_append, Replace1_cons_of_not_isPrefixOf _ _ _ _ hp2,
        Replace1_cons_of_not_isPrefixOf _ _ _ _ hp1, ih hX2]
      rfl

/-- The loop of `buildRegexp` when exactly two kinds occur: the one tried first
becomes the capturing group, the other the non-capturing wildcard. -/
theorem buildLoopT_two (s : system) (ts0 : Regexp) (l0 l1 l2 : List Str) (K1 K2 : Str)
    (hv : vars = l0 ++ K1 :: (l1 ++ K2 :: l2)) (hne : ∀ K ∈ vars, s.Command ≠ K)
    (h0 : ∀ K ∈ l0, ¬ lits K <:+: ts0) (hK1 : lits K1 <:+: ts0)
    (h1 : ∀ K ∈ l1, ¬ lits K <:+: Replace1 (lits K1) [ReTok.cap] ts0)
    (hK2 : lits K2 <:+: Replace1 (lits K1) [ReTok.cap] ts0)
    (h2 : ∀ K ∈ l2, ¬ lits K <:+:
      Replace1 (lits K2) [ReTok.any] (Replace1 (lits K1) [ReTok.cap] ts0)) :
    buildLoopT vars s ts0 false =
      .inr ({ s with v := K1 },
        Replace1 (lits K2) [ReTok.any] (Replace1 (lits K1) [ReTok.cap] ts0)) := by
  have m0 : ∀ K ∈ l0, K ∈ vars := fun K hK => by
    rw [hv]; exact List.mem_append_left _ hK
  have mK1 : K1 ∈ vars := by rw [hv]; simp
  have m1 : ∀ K ∈ l1, K ∈ vars := fun K hK => by
    rw [hv]; simp [hK]
  have mK2 : K2 ∈ vars := by rw [hv]; simp
  have m2 : ∀ K ∈ l2, K ∈ vars := fun K hK => by
    rw [hv]; simp [hK]
  rw [hv, buildLoopT_append_absent l0 _ s ts0 false (fun K hK => ⟨hne K (m0 K hK), h0 K hK⟩),
    buildLoopT_present K1 _ s ts0 false (hne K1 mK1) hK1]
  simp only [if_true]
  rw [buildLoopT_append_absent l1 _ { s with v := K1 } _ true
      (fun K hK => ⟨hne K (m1 K hK), h1 K hK⟩),
    buildLoopT_present K2 _ { s with v := K1 } _ true (hne K2 mK2) hK2]
  simp only [Bool.true_eq_false, if_false]
  exact buildLoopT_absent l2 { s with v := K1 } _ true
    (fun K hK => ⟨hne K (m2 K hK), h2 K hK⟩)

theorem two_kinds_split (K1 K2 : Str) (h1 : K1 ∈ vars) (h2 : K2 ∈ vars)
    (hlt : triedBefore K1 K2 = true) :
    ∃ l0 l1 l2 : List Str, vars = l0 ++ K1 :: (l1 ++ K2 :: l2) ∧
      (∀ K ∈ l0, K ≠ K1 ∧ K ≠ K2) ∧ (∀ K ∈ l1, K ≠ K1 ∧ K ≠ K2) ∧
      (∀ K ∈ l2, K ≠ K1 ∧ K ≠ K2) := by
  simp only [vars, List.mem_cons, List.mem_singleton, List.not_mem_nil, or_false] at h1 h2
  rcases h1 with rfl | rfl | rfl <;> rcases h2 with rfl | rfl | rfl
  · exact absurd hlt (by decide)
  · exact ⟨[], [], [ROM_RAW], rfl, by decide, by decide, by decide⟩
  · exact ⟨[], [BASENAME], [], rfl, by decide, by decide, by decide⟩
  · exact absurd hlt (by decide)
  · exact absurd hlt (by decide)
  · exact ⟨[ROM], [], [], rfl, by decide, by decide, by decide⟩
  · exact absurd hlt (by decide)
  · exact absurd hlt (by decide)
  · exact absurd hlt (by decide)

theorem triedBefore_total (P Q : Str) (hP : P ∈ vars) (hQ : Q ∈ vars) (hPQ : P ≠ Q) :
    triedBefore P Q = true ∨ (triedBefore P Q = false ∧ triedBefore Q P = true) := by
  simp only [vars, List.mem_cons, List.mem_singleton, List.not_mem_nil, or_false] at hP hQ
  rcases hP with rfl | rfl | rfl <;> rcases hQ with rfl | rfl | rfl <;>
    first
      | exact absurd rfl hPQ
      | exact Or.inl (by decide)
      | exact Or.inr ⟨by decide, by decide⟩

theorem two_command_ne (pre P M Q post : Str) (hP : P ∈ vars) (hM : M ≠ [])
    (honly : ∀ K ∈ vars, ∀ a b : Str, pre ++ P ++ M ++ Q ++ post = a ++ K ++ b →
      (K = P ∧ a = pre) ∨ (K = Q ∧ a = pre ++ P ++ M)) :
    ∀ K ∈ vars, pre ++ P ++ M ++ Q ++ post ≠ K := by
  intro K hK heq
  have hMlen : 0 < M.length := List.length_pos.mpr hM
  have hPlen : 0 < P.length := List.length_pos.mpr (vars_plain P hP).2
  rcases honly K hK [] [] (by rw [heq]; simp) with ⟨h1, h2⟩ | ⟨_, h2⟩
  · have h3 := congrArg List.length heq
    rw [h1] at h3
    simp only [List.length_append] at h3
    omega
  · have h3 := congrArg List.length h2
    simp only [List.length_append, List.length_nil] at h3
    omega

theorem two_absent (pre P M Q post : Str)
    (honly : ∀ K ∈ vars, ∀ a b : Str, pre ++ P ++ M ++ Q ++ post = a ++ K ++ b →
      (K = P ∧ a = pre) ∨ (K = Q ∧ a = pre ++ P ++ M)) :
    ∀ K ∈ vars, K ≠ P → K ≠ Q → ∀ t : Str, t <:+: pre ++ P ++ M ++ Q ++ post →
      ¬ lits K <:+: lits t := by
  intro K hK hKP hKQ t ht hin
  obtain ⟨a, b, hab⟩ := ((lits_occurs_iff K t).mp hin).trans ht
  rcases honly K hK a b hab.symm with ⟨h1, _⟩ | ⟨h1, _⟩
  · exact hKP h1
  · exact hKQ h1

theorem not_infix_append_cons (L A B : Regexp) (x : ReTok) (hx : x ∉ L) (hA : ¬ L <:+: A)
    (hB : ¬ L <:+: B) : ¬ L <:+: A ++ x :: B := by
  intro h
  rcases infix_of_infix_append_cons x L A B hx h with h1 | h1
  · exact hA h1
  · exact hB h1

/-- What `buildRegexp` makes of `pre ++ P ++ M ++ Q ++ post` when the left kind
`P` is tried before `Q`: the group is at `P`. -/
theorem buildRegexp_two_left (s : system) (pre P M Q post : Str) (hP : P ∈ vars)
    (hQ : Q ∈ vars) (hPQ : P ≠ Q) (hM : M ≠ [])
    (hcmd : s.Command = pre ++ P ++ M ++ Q ++ post)
    (honly : ∀ K ∈ vars, ∀ a b : Str, pre ++ P ++ M ++ Q ++ post = a ++ K ++ b →
      (K = P ∧ a = pre) ∨ (K = Q ∧ a = pre ++ P ++ M))
    (hord : triedBefore P Q = true) :
    buildRegexp s =
      ({ s with
          v := P
          re := some (.lit NUL :: (lits pre ++ .cap :: (lits M ++ .any :: lits post))
            ++ [.lit NUL]) }, none) := by
  obtain ⟨l0, l1, l2, hv, hl0, hl1, hl2⟩ := two_kinds_split P Q hP hQ hord
  have hPne : P ≠ [] := (vars_plain P hP).2
  have hQne : Q ≠ [] := (vars_plain Q hQ).2
  have hne : ∀ K ∈ vars, s.Command ≠ K := by
    rw [hcmd]; exact two_command_ne pre P M Q post hP hM honly
  have habs := two_absent pre P M Q post honly
  have i_pre : pre <:+: pre ++ P ++ M ++ Q ++ post := ⟨[], P ++ M ++ Q ++ post, by simp⟩
  have i_M : M <:+: pre ++ P ++ M ++ Q ++ post := ⟨pre ++ P, Q ++ post, by simp⟩
  have i_post : post <:+: pre ++ P ++ M ++ Q ++ post := ⟨pre ++ P ++ M ++ Q, [], by simp⟩
  have i_tail : M ++ Q ++ post <:+: pre ++ P ++ M ++ Q ++ post := ⟨pre ++ P, [], by simp⟩
  have hr1 : Replace1 (lits P) [ReTok.cap] (lits s.Command)
      = lits pre ++ ReTok.cap :: lits (M ++ Q ++ post) := by
    have e : lits s.Command = lits pre ++ lits P ++ lits (M ++ Q ++ post) := by
      rw [hcmd]; simp [lits]
    rw [e, Replace1_leftmost (lits P) [ReTok.cap] (lits pre) _ (lits_ne_nil P hPne)]
    · simp
    · intro a b hab
      rw [← e] at hab
      obtain ⟨a0, b0, h1, h2, _⟩ := lits_split P _ a b hab
      rcases honly P hP a0 b0 (by rw [← hcmd, h1]) with ⟨_, h3⟩ | ⟨h3, _⟩
      · rw [h2, h3]
      · exact absurd h3 hPQ
  have hQpre : ¬ lits Q <:+: lits pre := by
    intro hin
    obtain ⟨a, b, hab⟩ := (lits_occurs_iff Q pre).mp hin
    rcases honly Q hQ a (b ++ P ++ M ++ Q ++ post) (by rw [← hab]; simp) with ⟨h3, _⟩ | ⟨_, h3⟩
    · exact hPQ h3.symm
    · have h4 := congrArg List.length h3
      have h5 := congrArg List.length hab
      have : 0 < P.length := List.length_pos.mpr hPne
      simp only [List.length_append] at h4 h5
      omega
  have hr2 : Replace1 (lits Q) [ReTok.any] (lits pre ++ ReTok.cap :: lits (M ++ Q ++ post))
      = lits pre ++ ReTok.cap :: (lits M ++ ReTok.any :: lits post) := by
    rw [Replace1_past_cons (lits Q) _ (lits pre) _ ReTok.cap (lits_ne_nil Q hQne)
      (cap_not_mem_lits Q) hQpre]
    have e : lits (M ++ Q ++ post) = lits M ++ lits Q ++ lits post := by simp [lits]
    rw [e, Replace1_leftmost (lits Q) [ReTok.any] (lits M) _ (lits_ne_nil Q hQne)]
    · simp
    · intro a b hab
      rw [← e] at hab
      obtain ⟨a0, b0, h1, h2, _⟩ := lits_split Q _ a b hab
      rcases honly Q hQ (pre ++ P ++ a0) b0 (by
          have : pre ++ P ++ M ++ Q ++ post = pre ++ P ++ (M ++ Q ++ post) := by simp
          rw [this, h1]; simp) with ⟨h3, _⟩ | ⟨_, h3⟩
      · exact absurd h3.symm hPQ
      · have h4 : a0 = M := List.append_cancel_left h3
        rw [h2, h4]
  have hloop := buildLoopT_two s (lits s.Command) l0 l1 l2 P Q hv hne
    (fun K hK => by
      have hK2 : K ∈ vars := by rw [hv]; exact List.mem_append_left _ hK
      rw [hcmd]
      exact habs K hK2 (hl0 K hK).1 (hl0 K hK).2 _ (List.infix_refl _))
    ((lits_occurs_iff P s.Command).mpr ⟨pre, M ++ Q ++ post, by rw [hcmd]; simp⟩)
    (fun K hK => by
      have hK2 : K ∈ vars := by rw [hv]; simp [hK]
      rw [hr1]
      exact not_infix_append_cons _ _ _ _ (cap_not_mem_lits K)
        (habs K hK2 (hl1 K hK).1 (hl1 K hK).2 _ i_pre)
        (habs K hK2 (hl1 K hK).1 (hl1 K hK).2 _ i_tail))
    (by
      rw [hr1]
      exact ⟨lits pre ++ ReTok.cap :: lits M, lits post, by simp [lits]⟩)
    (fun K hK => by
      have hK2 : K ∈ vars := by rw [hv]; simp [hK]
      rw [hr1, hr2]
      exact not_infix_append_cons _ _ _ _ (cap_not_mem_lits K)
        (habs K hK2 (hl2 K hK).1 (hl2 K hK).2 _ i_pre)
        (not_infix_append_cons _ _ _ _ (any_not_mem_lits K)
          (habs K hK2 (hl2 K hK).1 (hl2 K hK).2 _ i_M)
          (habs K hK2 (hl2 K hK).1 (hl2 K hK).2 _ i_post)))
  rw [hr1, hr2] at hloop
  rw [buildRegexp_eq, hloop]

/-- What `buildRegexp` makes of `pre ++ P ++ M ++ Q ++ post` when the right kind
`Q` is tried before `P`: the group is at `Q`. -/
theorem buildRegexp_two_right (s : system) (pre P M Q post : Str) (hP : P ∈ vars)
    (hQ : Q ∈ vars) (hPQ : P ≠ Q) (hM : M ≠ [])
    (hcmd : s.Command = pre ++ P ++ M ++ Q ++ post)
    (honly : ∀ K ∈ vars, ∀ a b : Str, pre ++ P ++ M ++ Q ++ post = a ++ K ++ b →
      (K = P ∧ a = pre) ∨ (K = Q ∧ a = pre ++ P ++ M))
    (hord : triedBefore Q P = true) :
    buildRegexp s =
      ({ s with
          v := Q
          re := some (.lit NUL :: (lits pre ++ .any :: (lits M ++ .cap :: lits post))
            ++ [.lit NUL]) }, none) := by
  obtain ⟨l0, l1, l2, hv, hl0, hl1, hl2⟩ := two_kinds_split Q P hQ hP hord
  have hPne : P ≠ [] := (vars_plain P hP).2
  have hQne : Q ≠ [] := (vars_plain Q hQ).2
  have hne : ∀ K ∈ vars, s.Command ≠ K := by
    rw [hcmd]; exact two_command_ne pre P M Q post hP hM honly
  have habs := two_absent pre P M Q post honly
  have i_pre : pre <:+: pre ++ P ++ M ++ Q ++ post := ⟨[], P ++ M ++ Q ++ post, by simp⟩
  have i_M : M <:+: pre ++ P ++ M ++ Q ++ post := ⟨pre ++ P, Q ++ post, by simp⟩
  have i_post : post <:+: pre ++ P ++ M ++ Q ++ post := ⟨pre ++ P ++ M ++ Q, [], by simp⟩
  have i_head : pre ++ P ++ M <:+: pre ++ P ++ M ++ Q ++ post := ⟨[], Q ++ post, by simp⟩
  have hr1 : Replace1 (lits Q) [ReTok.cap] (lits s.Command)
      = lits (pre ++ P ++ M) ++ ReTok.cap :: lits post := by
    have e : lits s.Command = lits (pre ++ P ++ M) ++ lits Q ++ lits post := by
      rw [hcmd]; simp [lits]
    rw [e, Replace1_leftmost (lits Q) [ReTok.cap] (lits (pre ++ P ++ M)) _ (lits_ne_nil Q hQne)]
    · simp
    · intro a b hab
      rw [← e] at hab
      obtain ⟨a0, b0, h1, h2, _⟩ := lits_split Q _ a b hab
      rcases honly Q hQ a0 b0 (by rw [← hcmd, h1]) with ⟨h3, _⟩ | ⟨_, h3⟩
      · exact absurd h3.symm hPQ
      · rw [h2, h3]
  have hr2 : Replace1 (lits P) [ReTok.any] (lits (pre ++ P ++ M) ++ ReTok.cap :: lits post)
      = lits pre ++ ReTok.any :: (lits M ++ ReTok.cap :: lits post) := by
    rw [Replace1_before_cons (lits P) _ (lits (pre ++ P ++ M)) _ ReTok.cap (lits_ne_nil P hPne)
      (cap_not_mem_lits P) ((lits_occurs_iff P _).mpr ⟨pre, M, rfl⟩)]
    have e : lits (pre ++ P ++ M) = lits pre ++ lits P ++ lits M := by simp [lits]
    rw [e, Replace1_leftmost (lits P) [ReTok.any] (lits pre) _ (lits_ne_nil P hPne)]
    · simp
    · intro a b hab
      rw [← e] at hab
      obtain ⟨a0, b0, h1, h2, _⟩ := lits_split P _ a b hab
      rcases honly P hP a0 (b0 ++ Q ++ post) (by rw [h1]; simp) with ⟨_, h3⟩ | ⟨h3, _⟩
      · rw [h2, h3]
      · exact absurd h3 hPQ
  have hloop := buildLoopT_two s (lits s.Command) l0 l1 l2 Q P hv hne
    (fun K hK => by
      have hK2 : K ∈ vars := by rw [hv]; exact List.mem_append_left _ hK
      rw [hcmd]
      exact habs K hK2 (hl0 K hK).2 (hl0 K hK).1 _ (List.infix_refl _))
    ((lits_occurs_iff Q s.Command).mpr ⟨pre ++ P ++ M, post, by rw [hcmd]⟩)
    (fun K hK => by
      have hK2 : K ∈ vars := by rw [hv]; simp [hK]
      rw [hr1]
      exact not_infix_append_cons _ _ _ _ (cap_not_mem_lits K)
        (habs K hK2 (hl1 K hK).2 (hl1 K hK).1 _ i_head)
        (habs K hK2 (hl1 K hK).2 (hl1 K hK).1 _ i_post))
    (by
      rw [hr1]
      exact ⟨lits pre, lits M ++ ReTok.cap :: lits post, by simp [lits]⟩)
    (fun K hK => by
      have hK2 : K ∈ vars := by rw [hv]; simp [hK]
      rw [hr1, hr2]
      exact not_infix_append_cons _ _ _ _ (any_not_mem_lits K)
        (habs K hK2 (hl2 K hK).2 (hl2 K hK).1 _ i_pre)
        (not_infix_append_cons _ _ _ _ (cap_not_mem_lits K)
          (habs K hK2 (hl2 K hK).2 (hl2 K hK).1 _ i_M)
          (habs K hK2 (hl2 K hK).2 (hl2 K hK).1 _ i_post)))
  rw [hr1, hr2] at hloop
  rw [buildRegexp_eq, hloop]

theorem matchHere_closing (post : Str) :
    matchHere (post ++ [NUL]) (lits post ++ [ReTok.lit NUL]) = some (post ++ [NUL], []) := by
  have h := matchHere_lits (post ++ [NUL]) [] []
  rw [matchHere_nil_nil] at h
  simpa [lits] using h

theorem matchHere_head_mismatch (m : Char) (mid x2 rest : Str) (ts : Regexp) (hx2 : x2 ≠ [])
    (hm : m ∉ x2) : matchHere (x2 ++ rest) (lits (m :: mid) ++ ts) = none := by
  cases x2 with
  | nil => exact absurd rfl hx2
  | cons c x2 =>
    have hc : ¬ c = m := fun h => hm (h ▸ List.mem_cons_self _ _)
    simp only [lits, List.map_cons, List.cons_append]
    rw [matchHere, if_neg hc]

theorem matchHere_last_wildcard_short (y post : Str) (hyN : NUL ∉ y) (hpostN : NUL ∉ post) :
    ∀ v1 v2 : Str, y = v1 ++ v2 → v1 ≠ [] → v2 ≠ [] →
      matchHere (v2 ++ (post ++ [NUL])) (lits post ++ [ReTok.lit NUL]) = none := by
  intro v1 v2 hsplit _ h2
  have hN : NUL ∉ v2 := fun hm => hyN (by rw [hsplit]; exact List.mem_append_right _ hm)
  have h3 := matchHere_tail_none v2 post [] h2 hN hpostN
  simpa using h3

/-- The pattern with the group at the left placeholder captures `x`. -/
theorem matchHere_two_left (pre x mid y post : Str) (m : Char) (hm : m ∉ x)
    (hpostN : NUL ∉ post) (hx : x ≠ []) (hxnl : newline ∉ x) (hy : y ≠ []) (hyN : NUL ∉ y)
    (hynl : newline ∉ y) :
    matchHere (NUL :: pre ++ x ++ (m :: mid) ++ y ++ post ++ [NUL])
        (.lit NUL :: (lits pre ++ .cap :: (lits (m :: mid) ++ .any :: lits post)) ++ [.lit NUL])
      = some (NUL :: pre ++ x ++ (m :: mid) ++ y ++ post ++ [NUL], [x]) := by
  have hany : matchHere (y ++ (post ++ [NUL])) (ReTok.any :: (lits post ++ [ReTok.lit NUL]))
      = some (y ++ (post ++ [NUL]), []) :=
    matchHere_any_exact y (post ++ [NUL]) _ (post ++ [NUL], []) hy hynl (matchHere_closing post)
      (matchHere_last_wildcard_short y post hyN hpostN)
  have hmid : matchHere ((m :: mid) ++ (y ++ (post ++ [NUL])))
      (lits (m :: mid) ++ ReTok.any :: (lits post ++ [ReTok.lit NUL]))
      = some ((m :: mid) ++ (y ++ (post ++ [NUL])), []) := by
    rw [matchHere_lits, hany]
  have hcap : matchHere (x ++ ((m :: mid) ++ (y ++ (post ++ [NUL]))))
      (ReTok.cap :: (lits (m :: mid) ++ ReTok.any :: (lits post ++ [ReTok.lit NUL])))
      = some (x ++ ((m :: mid) ++ (y ++ (post ++ [NUL]))), [x]) :=
    matchHere_cap_exact x _ _ (_, []) hx hxnl hmid
      (fun v1 v2 hsplit _ h2 => matchHere_head_mismatch m mid v2 _ _ h2
        (fun hmem => hm (by rw [hsplit]; exact List.mem_append_right _ hmem)))
  have h := matchHere_lits (NUL :: pre) (x ++ ((m :: mid) ++ (y ++ (post ++ [NUL]))))
    (ReTok.cap :: (lits (m :: mid) ++ ReTok.any :: (lits post ++ [ReTok.lit NUL])))
  rw [hcap] at h
  simpa [lits] using h

/-- The pattern with the group at the right placeholder captures `y`. -/
theorem matchHere_two_right (pre x mid y post : Str) (m : Char) (hm : m ∉ x)
    (hpostN : NUL ∉ post) (hx : x ≠ []) (hxnl : newline ∉ x) (hy : y ≠ []) (hyN : NUL ∉ y)
    (hynl : newline ∉ y) :
    matchHere (NUL :: pre ++ x ++ (m :: mid) ++ y ++ post ++ [NUL])
        (.lit NUL :: (lits pre ++ .any :: (lits (m :: mid) ++ .cap :: lits post)) ++ [.lit NUL])
      = some (NUL :: pre ++ x ++ (m :: mid) ++ y ++ post ++ [NUL], [y]) := by
  have hcap : matchHere (y ++ (post ++ [NUL])) (ReTok.cap :: (lits post ++ [ReTok.lit NUL]))
      = some (y ++ (post ++ [NUL]), [y]) :=
    matchHere_cap_exact y (post ++ [NUL]) _ (post ++ [NUL], []) hy hynl (matchHere_closing post)
      (matchHere_last_wildcard_short y post hyN hpostN)
  have hmid : matchHere ((m :: mid) ++ (y ++ (post ++ [NUL])))
      (lits (m :: mid) ++ ReTok.cap :: (lits post ++ [ReTok.lit NUL]))
      = some ((m :: mid) ++ (y ++ (post ++ [NUL])), [y]) := by
    rw [matchHere_lits, hcap]
  have hany : matchHere (x ++ ((m :: mid) ++ (y ++ (post ++ [NUL]))))
      (ReTok.any :: (lits (m :: mid) ++ ReTok.cap :: (lits post ++ [ReTok.lit NUL])))
      = some (x ++ ((m :: mid) ++ (y ++ (post ++ [NUL]))), [y]) :=
    matchHere_any_exact x _ _ (_, [y]) hx hxnl hmid
      (fun v1 v2 hsplit _ h2 => matchHere_head_mismatch m mid v2 _ _ h2
        (fun hmem => hm (by rw [hsplit]; exact List.mem_append_right _ hmem)))
  have h := matchHere_lits (NUL :: pre) (x ++ ((m :: mid) ++ (y ++ (post ++ [NUL]))))
    (ReTok.any :: (lits (m :: mid) ++ ReTok.cap :: (lits post ++ [ReTok.lit NUL])))
  rw [hany] at h
  simpa [lits] using h

/-- A computable test for "the only placeholder occurrences of the template
are `P` after `pre` and `Q` after `pre ++ P ++ M`". -/
theorem only_two_occurrences_of_placeholders (pre P M Q post : Str)
    (h : placeholdersFrom (pre ++ P ++ M ++ Q ++ post) 0
      = [(pre.length, P), ((pre ++ P ++ M).length, Q)]) :
    ∀ K ∈ vars, ∀ a b : Str, pre ++ P ++ M ++ Q ++ post = a ++ K ++ b →
      (K = P ∧ a = pre) ∨ (K = Q ∧ a = pre ++ P ++ M) := by
  intro K hK a b hab
  have hm := mem_placeholdersFrom K hK a b 0
  rw [← hab, h] at hm
  simp only [Nat.zero_add, List.mem_cons, List.mem_singleton, Prod.mk.injEq, List.not_mem_nil,
    or_false] at hm
  rcases hm with ⟨hlen, rfl⟩ | ⟨hlen, rfl⟩
  · left
    refine ⟨rfl, ?_⟩
    have h2 : pre ++ (K ++ M ++ Q ++ post) = a ++ (K ++ b) := by simpa using hab
    exact (List.append_inj h2 hlen.symm).1.symm
  · right
    refine ⟨rfl, ?_⟩
    have h2 : (pre ++ P ++ M) ++ (K ++ post) = a ++ (K ++ b) := by simpa using hab
    exact (List.append_inj h2 hlen.symm).1.symm

/-- The lazy wildcard stops at the first place where the rest of the pattern
matches: on the argument `emu a b c` the template `emu %ROM% %BASENAME%`
returns `a` and the template `emu %BASENAME% %ROM%` returns `b c`, so the text
returned for the split `a b` / `c` is neither `a b` nor `c` when the separator
occurs in the left text. -/
theorem lazy_wildcard_stops_at_first_separator :
    Match (buildRegexp { Command := "emu %ROM% %BASENAME%".toList }).1
      "sh\x00-c\x00emu a b c\x00".toList = some ("a".toList, none) ∧
    Match (buildRegexp basenameThenRomSys).1
      "sh\x00-c\x00emu a b c\x00".toList = some ("b c".toList, none) := by
  decide

/-- C7 (amended): `buildRegexp` tries the kinds in the order `%ROM%`,
`%BASENAME%`, `%ROM_RAW%`. For a freshly loaded descriptor whose template
`pre ++ P ++ (m :: mid) ++ Q ++ post` has exactly two placeholder occurrences, of
different kinds `P` and `Q`, `buildRegexp` succeeds, the kind tried first is
recorded as the captured kind, and its occurrence is the capturing group,
whether it is the left or the right one; the other occurrence is the
non-capturing wildcard. For all texts `x` and `y` that are non-empty and have
no newline, such that `m`, the first character of the text between the
placeholders, does not occur in `x`, and `y` and `post` have no NUL, `Match` on
`NUL ++ pre ++ x ++ (m :: mid) ++ y ++ post ++ NUL` returns the text at the
captured occurrence (`x` for `P`, `y` for `Q`; with its escaping backslashes
removed when the kind is `%ROM%`). -/
theorem capture_goes_to_kind_tried_first (s : system) (pre P mid Q post : Str) (m : Char)
    (hskip : s.skip = false) (hP : P ∈ vars) (hQ : Q ∈ vars) (hPQ : P ≠ Q)
    (hcmd : s.Command = pre ++ P ++ (m :: mid) ++ Q ++ post)
    (honly : ∀ K ∈ vars, ∀ a b : Str, pre ++ P ++ (m :: mid) ++ Q ++ post = a ++ K ++ b →
      (K = P ∧ a = pre) ∨ (K = Q ∧ a = pre ++ P ++ (m :: mid))) :
    (buildRegexp s).2 = none ∧
    (buildRegexp s).1.v = (if triedBefore P Q = true then P else Q) ∧
    (buildRegexp s).1.re = some
      (.lit NUL ::
        (lits pre ++ (if triedBefore P Q = true then ReTok.cap else ReTok.any) ::
          (lits (m :: mid) ++ (if triedBefore P Q = true then ReTok.any else ReTok.cap) ::
            lits post)) ++ [.lit NUL]) ∧
    ∀ x y : Str, m ∉ x → NUL ∉ post → x ≠ [] → newline ∉ x → y ≠ [] → NUL ∉ y →
      newline ∉ y →
      Match (buildRegexp s).1 (NUL :: pre ++ x ++ (m :: mid) ++ y ++ post ++ [NUL])
        = some
            (if triedBefore P Q = true then (if P = ROM then unslash false x else x)
             else (if Q = ROM then unslash false y else y), none) := by
  have hM : m :: mid ≠ [] := by simp
  rcases triedBefore_total P Q hP hQ hPQ with hord | ⟨hord1, hord2⟩
  · have hb := buildRegexp_two_left s pre P (m :: mid) Q post hP hQ hPQ hM hcmd honly hord
    rw [hb]
    refine ⟨rfl, by simp [hord], by simp only [hord, if_true], ?_⟩
    intro x y hm hpostN hx hxnl hy hyN hynl
    have hfind : FindStringSubmatch
        (ReTok.lit NUL :: (lits pre ++ ReTok.cap :: (lits (m :: mid) ++ ReTok.any :: lits post))
          ++ [ReTok.lit NUL])
        (NUL :: pre ++ x ++ (m :: mid) ++ y ++ post ++ [NUL])
        = some [NUL :: pre ++ x ++ (m :: mid) ++ y ++ post ++ [NUL], x] :=
      FindStringSubmatch_at_start _ NUL (pre ++ x ++ (m :: mid) ++ y ++ post ++ [NUL]) _
        (matchHere_two_left pre x mid y post m hm hpostN hx hxnl hy hyN hynl)
    unfold Match
    simp only [hskip, Bool.false_eq_true, if_false]
    rw [hfind, if_pos hord]
    by_cases hrom : P = ROM
    · simp [hrom]
    · simp [hrom]
  · have hb := buildRegexp_two_right s pre P (m :: mid) Q post hP hQ hPQ hM hcmd honly hord2
    rw [hb]
    refine ⟨rfl, by simp [hord1],
      by simp only [hord1, Bool.false_eq_true, if_false], ?_⟩
    intro x y hm hpostN hx hxnl hy hyN hynl
    have hfind : FindStringSubmatch
        (ReTok.lit NUL :: (lits pre ++ ReTok.any :: (lits (m :: mid) ++ ReTok.cap :: lits post))
          ++ [ReTok.lit NUL])
        (NUL :: pre ++ x ++ (m :: mid) ++ y ++ post ++ [NUL])
        = some [NUL :: pre ++ x ++ (m :: mid) ++ y ++ post ++ [NUL], y] :=
      FindStringSubmatch_at_start _ NUL (pre ++ x ++ (m :: mid) ++ y ++ post ++ [NUL]) _
        (matchHere_two_right pre x mid y post m hm hpostN hx hxnl hy hyN hynl)
    unfold Match
    simp only [hskip, Bool.false_eq_true, if_false]
    rw [hfind, if_neg (by rw [hord1]; decide)]
    by_cases hrom : Q = ROM
    · simp [hrom]
    · simp [hrom]

/-- Witness of C7 (amended): the template `emu %BASENAME% %ROM%` on the
argument `emu first second`; the group is at `%ROM%`, the right placeholder,
and `Match` returns `second`. -/
theorem capture_goes_to_kind_tried_first_witness :
    (buildRegexp { Command := "emu ".toList ++ BASENAME ++ (' ' :: []) ++ ROM ++ [] }).2 = none ∧
    (buildRegexp { Command := "emu ".toList ++ BASENAME ++ (' ' :: []) ++ ROM ++ [] }).1.v = ROM ∧
    (buildRegexp { Command := "emu ".toList ++ BASENAME ++ (' ' :: []) ++ ROM ++ [] }).1.re = some
      (.lit NUL ::
        (lits "emu ".toList ++ ReTok.any :: (lits (' ' :: []) ++ ReTok.cap :: lits []))
          ++ [.lit NUL]) ∧
    Match (buildRegexp { Command := "emu ".toList ++ BASENAME ++ (' ' :: []) ++ ROM ++ [] }).1
        (NUL :: "emu ".toList ++ "first".toList ++ (' ' :: []) ++ "second".toList ++ [] ++ [NUL])
      = some ("second".toList, none) :=
  have h := capture_goes_to_kind_tried_first
    { Command := "emu ".toList ++ BASENAME ++ (' ' :: []) ++ ROM ++ [] }
    "emu ".toList BASENAME [] ROM [] ' '
    rfl (by decide) (by decide) (by decide) rfl
    (only_two_occurrences_of_placeholders "emu ".toList BASENAME (' ' :: []) ROM [] (by decide))
  ⟨h.1, h.2.1, h.2.2.1,
    h.2.2.2 "first".toList "second".toList (by decide) (by decide) (by decide) (by decide)
      (by decide) (by decide) (by decide)⟩

/-! ## Backslashes in a captured `%ROM%` text -/

theorem unslash_true_eq (rest : Str) (h : rest.head? ≠ some backslash) :
    unslash true rest = unslash false rest := by
  cases rest with
  | nil => rfl
  | cons r rs =>
    have hr : ¬ r = backslash := fun hr => h (by rw [hr]; rfl)
    simp [unslash, hr]

theorem unslash_run (n : Nat) (rest : Str) (h : rest.head? ≠ some backslash) :
    unslash false (List.replicate n backslash ++ rest)
      = List.replicate (n / 2) backslash ++ unslash false rest := by
  induction n using Nat.twoStepInduction with
  | zero => rfl
  | one =>
    show unslash false (backslash :: rest) = unslash false rest
    rw [unslash]
    simp only [and_self, if_true]
    exact unslash_true_eq rest h
  | more n ih _ =>
    have e : (n + 2) / 2 = n / 2 + 1 := by omega
    rw [e, List.replicate_succ, List.replicate_succ, List.replicate_succ]
    simp only [List.cons_append]
    rw [unslash]
    simp only [and_self, if_true]
    rw [unslash]
    simp only [Bool.true_eq_false, and_false, if_false]
    rw [ih]

/-- C11: when the captured kind is `%ROM%`, `Match` returns the captured text
`g` passed through `unslash`: a maximal run of `n` backslashes becomes `n / 2`
backslashes, every other character is kept, a text without backslash is
returned unchanged, and `C:\\Roms\\Game.zip` (two backslashes each) becomes
`C:\Roms\Game.zip` (one each). -/
theorem rom_capture_loses_escaping_backslashes (s : system) (re : Regexp) (cmd : Str)
    (m : List Str) (g : Str) (hskip : s.skip = false) (hre : s.re = some re) (hv : s.v = ROM)
    (hfind : FindStringSubmatch re cmd = some m) (hg : m.get? 1 = some g) :
    Match s cmd = some (unslash false g, none) ∧
    (∀ (n : Nat) (rest : Str), rest.head? ≠ some backslash →
      unslash false (List.replicate n backslash ++ rest)
        = List.replicate (n / 2) backslash ++ unslash false rest) ∧
    (∀ (c : Char) (rest : Str), c ≠ backslash →
      unslash false (c :: rest) = c :: unslash false rest) ∧
    (backslash ∉ g → unslash false g = g) ∧
    unslash false "C:\\\\Roms\\\\Game.zip".toList = "C:\\Roms\\Game.zip".toList := by
  refine ⟨?_, unslash_run, ?_, unslash_of_no_backslash g false, by decide⟩
  · unfold Match
    simp only [hskip, Bool.false_eq_true, if_false, hre, hfind, hg, hv, if_true]
  · intro c rest hc
    simp [unslash, hc]

/-- Witness of C11: the template `emu %ROM%` on the argument `emu a\\b` (two
backslashes). -/
theorem rom_capture_loses_escaping_backslashes_witness :
    Match emuSys (NUL :: "emu ".toList ++ ['a', backslash, backslash, 'b'] ++ [NUL])
      = some (unslash false ['a', backslash, backslash, 'b'], none) ∧
    (∀ (n : Nat) (rest : Str), rest.head? ≠ some backslash →
      unslash false (List.replicate n backslash ++ rest)
        = List.replicate (n / 2) backslash ++ unslash false rest) ∧
    (∀ (c : Char) (rest : Str), c ≠ backslash →
      unslash false (c :: rest) = c :: unslash false rest) ∧
    (backslash ∉ ['a', backslash, backslash, 'b'] →
      unslash false ['a', backslash, backslash, 'b'] = ['a', backslash, backslash, 'b']) ∧
    unslash false "C:\\\\Roms\\\\Game.zip".toList = "C:\\Roms\\Game.zip".toList :=
  rom_capture_loses_escaping_backslashes emuSys
    (lits (NUL :: "emu ".toList) ++ [ReTok.cap, ReTok.lit NUL])
    (NUL :: "emu ".toList ++ ['a', backslash, backslash, 'b'] ++ [NUL])
    [NUL :: "emu ".toList ++ ['a', backslash, backslash, 'b'] ++ [NUL],
      ['a', backslash, backslash, 'b']]
    ['a', backslash, backslash, 'b'] (by decide) (by decide) (by decide) (by decide) (by decide)

/-! ## Further evaluations -/

/-- C12: for the template `emu %ROM% -f` and the arguments `sh`, `emu a`,
`b -f`, the wildcard runs over the NUL byte between two arguments: `Match`
returns `a`, NUL, `b`, a text that contains a NUL byte and spans two arguments. -/
theorem capture_spans_two_arguments :
    (buildRegexp trailingFlagSys).2 = none ∧
    (buildRegexp trailingFlagSys).1.skip = false ∧
    Match (buildRegexp trailingFlagSys).1 "sh\x00emu a\x00b -f\x00".toList
      = some (['a', NUL, 'b'], none) ∧
    NUL ∈ ['a', NUL, 'b'] := by
  decide

/-- C18: `buildRegexp` accepts the template `emu`, which has no placeholder; the
compiled pattern has no group, so on the arguments `sh`, `emu` the pattern
matches and reading group 1 crashes `Match`, and with it `run`. -/
theorem match_without_group_crashes :
    (buildRegexp noPlaceholderSys).2 = none ∧
    (buildRegexp noPlaceholderSys).1.skip = false ∧
    (buildRegexp noPlaceholderSys).1.re = some (lits (NUL :: "emu".toList) ++ [ReTok.lit NUL]) ∧
    FindStringSubmatch (lits (NUL :: "emu".toList) ++ [ReTok.lit NUL]) "sh\x00emu\x00".toList
      = some [NUL :: "emu".toList ++ [NUL]] ∧
    Match (buildRegexp noPlaceholderSys).1 "sh\x00emu\x00".toList = none ∧
    (run [plainEmuTick] (Watcher.init [(buildRegexp noPlaceholderSys).1])).status = .crashed := by
  decide

/-- C19: with two matching candidates in one process table `Events` carries two
`Start` events in a row; the `Stop` event of the next tick follows the second. -/
theorem two_starts_without_stop_between :
    (run [twoMatchTick, goneTick] (Watcher.init [emuSys])).Events.map (fun e => e.Op)
      = [some .Start, some .Start, some .Stop] ∧
    (run [twoMatchTick, goneTick] (Watcher.init [emuSys])).Events.map (fun e => e.Game.Path)
      = ["a".toList, "b".toList, "b".toList] := by
  decide

/-- C20: in a tick that begins with a tracked process whose `cmdline` still
exists, nothing is sent on `Events` or `Errors`, no `cmdline` is opened, and
`running`, `last` and the debounce table stay as they were. -/
theorem tick_with_live_tracked_process_changes_nothing (t : Tick) (w : Watcher)
    (hrun : w.running ≠ -1) (halive : t.cmdlineExists w.running = true) :
    (tick t w).Events = w.Events ∧ (tick t w).Errors = w.Errors ∧
    (tick t w).opened = w.opened ∧ (tick t w).running = w.running ∧
    (tick t w).last = w.last ∧ (tick t w).procs = w.procs := by
  unfold tick
  by_cases hst : w.status ≠ .looping
  · rw [if_pos hst]
    exact ⟨rfl, rfl, rfl, rfl, rfl, rfl⟩
  · rw [if_neg hst]
    by_cases hcl : t.isClosed = true
    · rw [if_pos hcl]
      exact ⟨rfl, rfl, rfl, rfl, rfl, rfl⟩
    · rw [if_neg hcl, if_pos ⟨hrun, halive⟩]
      exact ⟨rfl, rfl, rfl, rfl, rfl, rfl⟩

/-- Witness of C20: after process 10 matched in `oneMatchTick`, a tick in which
its `cmdline` still exists. -/
theorem tick_with_live_tracked_process_changes_nothing_witness :
    (tick { now := 6, cmdlineExists := fun _ => true }
        (run [oneMatchTick] (Watcher.init [emuSys]))).Events
      = (run [oneMatchTick] (Watcher.init [emuSys])).Events ∧
    (tick { now := 6, cmdlineExists := fun _ => true }
        (run [oneMatchTick] (Watcher.init [emuSys]))).Errors
      = (run [oneMatchTick] (Watcher.init [emuSys])).Errors ∧
    (tick { now := 6, cmdlineExists := fun _ => true }
        (run [oneMatchTick] (Watcher.init [emuSys]))).opened
      = (run [oneMatchTick] (Watcher.init [emuSys])).opened ∧
    (tick { now := 6, cmdlineExists := fun _ => true }
        (run [oneMatchTick] (Watcher.init [emuSys]))).running
      = (run [oneMatchTick] (Watcher.init [emuSys])).running ∧
    (tick { now := 6, cmdlineExists := fun _ => true }
        (run [oneMatchTick] (Watcher.init [emuSys]))).last
      = (run [oneMatchTick] (Watcher.init [emuSys])).last ∧
    (tick { now := 6, cmdlineExists := fun _ => true }
        (run [oneMatchTick] (Watcher.init [emuSys]))).procs
      = (run [oneMatchTick] (Watcher.init [emuSys])).procs :=
  tick_with_live_tracked_process_changes_nothing { now := 6, cmdlineExists := fun _ => true }
    (run [oneMatchTick] (Watcher.init [emuSys])) (by decide) rfl

/-! ## The metadata resolver -/

/-- The loop of `GetGame` returns the first entry whose compared name is
`name`, with its path fields rewritten. -/
theorem findGame_eq_find (s : system) (name : Str) (gl : List Game) :
    findGame s name gl
      = (gl.find? (fun x => decide (storedName s x = name))).map (resolveEntry s) := by
  induction gl with
  | nil => rfl
  | cons x xs ih =>
    by_cases h : storedName s x = name
    · have h2 : ¬ (if s.v = BASENAME then
            (Base x.Path).take ((Base x.Path).length - (Ext (Base x.Path)).length)
          else Base x.Path) ≠ name := by
        intro hne
        exact hne h
      simp only [findGame, h2, if_false, List.find?, h, decide_True, Option.map_some', resolveEntry]
    · have h2 : (if s.v = BASENAME then
            (Base x.Path).take ((Base x.Path).length - (Ext (Base x.Path)).length)
          else Base x.Path) ≠ name := h
      simp only [findGame, List.find?, h, decide_False, ih]
      rw [if_pos h2]

theorem GetGame_eq_find (s : system) (decodeFile : Str → Except GoError (List Game))
    (game : Str) (gl : List Game) (hgl : s.GameListPath ≠ [])
    (hdec : decodeFile s.GameListPath = .ok gl) :
    GetGame s decodeFile game =
      match gl.find? (fun x => decide (storedName s x = Base game)) with
      | some x => (resolveEntry s x, none)
      | none => ({}, some (game ++ ": not found".toList)) := by
  unfold GetGame
  rw [if_neg hgl]
  simp only [hdec, findGame_eq_find]
  cases gl.find? (fun x => decide (storedName s x = Base game)) <;> rfl

/-- C13, as stated, fails: with captured kind `%BASENAME%`, extracted path
`Game.sfc` and the catalog entry `./Game.sfc`, both names without extension are
`Game`, yet `GetGame` selects no entry: only the stored name is stripped. -/
theorem basename_extracted_name_keeps_extension :
    snesSys.v = BASENAME ∧
    stripExt (Base "Game.sfc".toList) = stripExt (Base "./Game.sfc".toList) ∧
    GetGame snesSys snesCatalog "Game.sfc".toList
      = ({}, some "Game.sfc: not found".toList) := by
  decide

/-- C13 (amended): when the captured kind is `%BASENAME%`, a catalog is
configured and parses, `GetGame` strips the extension from the base filename
of each entry's stored path only: it selects the first entry whose stripped
stored name equals the base filename of the extracted path as it is, and fails
with the not-found error when there is none. -/
theorem basename_strips_stored_name_only (s : system)
    (decodeFile : Str → Except GoError (List Game)) (game : Str) (gl : List Game)
    (hv : s.v = BASENAME) (hgl : s.GameListPath ≠ [])
    (hdec : decodeFile s.GameListPath = .ok gl) :
    GetGame s decodeFile game =
      match gl.find? (fun x => decide (stripExt (Base x.Path) = Base game)) with
      | some x => (resolveEntry s x, none)
      | none => ({}, some (game ++ ": not found".toList)) := by
  rw [GetGame_eq_find s decodeFile game gl hgl hdec]
  simp only [storedName, hv, if_true]

/-- Witness of C13 (amended): extracted path `Game` and the entry `./Game.sfc`. -/
theorem basename_strips_stored_name_only_witness :
    GetGame snesSys snesCatalog "Game".toList =
      match ([{ Path := "./Game.sfc".toList, GameTitle := "Game".toList,
                Image := "/img/Game.png".toList }] : List Game).find?
          (fun x => decide (stripExt (Base x.Path) = Base "Game".toList)) with
      | some x => (resolveEntry snesSys x, none)
      | none => ({}, some ("Game".toList ++ ": not found".toList)) :=
  basename_strips_stored_name_only snesSys snesCatalog "Game".toList _ (by decide) (by decide) rfl

/-- C14: when a catalog is configured and parses, `GetGame` returns the earliest
entry in document order whose compared name (the base of its stored path,
without extension when the kind is `%BASENAME%`) equals the base filename of
the extracted path, and it fails, with the not-found error, exactly when no
entry has that name. -/
theorem getGame_returns_earliest_match (s : system)
    (decodeFile : Str → Except GoError (List Game)) (game : Str) (gl : List Game)
    (hgl : s.GameListPath ≠ []) (hdec : decodeFile s.GameListPath = .ok gl) :
    (∀ (pre : List Game) (x : Game) (post : List Game), gl = pre ++ x :: post →
      storedName s x = Base game → (∀ y ∈ pre, storedName s y ≠ Base game) →
      GetGame s decodeFile game = (resolveEntry s x, none)) ∧
    ((GetGame s decodeFile game).2 = some (game ++ ": not found".toList) ↔
      ∀ x ∈ gl, storedName s x ≠ Base game) ∧
    ((GetGame s decodeFile game).2 ≠ none ↔ ∀ x ∈ gl, storedName s x ≠ Base game) := by
  have hG := GetGame_eq_find s decodeFile game gl hgl hdec
  refine ⟨?_, ?_, ?_⟩
  · intro pre x post hsplit hx hpre
    have hfind : gl.find? (fun x => decide (storedName s x = Base game)) = some x := by
      rw [hsplit, List.find?_append]
      have h1 : pre.find? (fun x => decide (storedName s x = Base game)) = none := by
        rw [List.find?_eq_none]
        intro y hy
        simpa using hpre y hy
      rw [h1]
      simp [List.find?, hx]
    rw [hG, hfind]
  · rw [hG]
    cases hf : gl.find? (fun x => decide (storedName s x = Base game)) with
    | none =>
      exact ⟨fun _ x hx => by simpa using List.find?_eq_none.mp hf x hx, fun _ => rfl⟩
    | some x =>
      have hx : storedName s x = Base game := by simpa using List.find?_some hf
      have hmem := List.mem_of_find?_eq_some hf
      exact ⟨fun h => absurd h (by simp), fun hall => absurd hx (hall x hmem)⟩
  · rw [hG]
    cases hf : gl.find? (fun x => decide (storedName s x = Base game)) with
    | none =>
      exact ⟨fun _ x hx => by simpa using List.find?_eq_none.mp hf x hx, fun _ => by simp⟩
    | some x =>
      have hx : storedName s x = Base game := by simpa using List.find?_some hf
      have hmem := List.mem_of_find?_eq_some hf
      exact ⟨fun h => absurd rfl h, fun hall => absurd hx (hall x hmem)⟩

/-- Witness of C14: the catalog with the one entry `./Game.sfc`, read for the
extracted path `Game`. -/
theorem getGame_returns_earliest_match_witness :
    (∀ (pre : List Game) (x : Game) (post : List Game),
      [({ Path := "./Game.sfc".toList, GameTitle := "Game".toList,
          Image := "/img/Game.png".toList } : Game)] = pre ++ x :: post →
      storedName snesSys x = Base "Game".toList →
      (∀ y ∈ pre, storedName snesSys y ≠ Base "Game".toList) →
      GetGame snesSys snesCatalog "Game".toList = (resolveEntry snesSys x, none)) ∧
    ((GetGame snesSys snesCatalog "Game".toList).2
        = some ("Game".toList ++ ": not found".toList) ↔
      ∀ x ∈ [({ Path := "./Game.sfc".toList, GameTitle := "Game".toList,
                Image := "/img/Game.png".toList } : Game)],
        storedName snesSys x ≠ Base "Game".toList) ∧
    ((GetGame snesSys snesCatalog "Game".toList).2 ≠ none ↔
      ∀ x ∈ [({ Path := "./Game.sfc".toList, GameTitle := "Game".toList,
                Image := "/img/Game.png".toList } : Game)],
        storedName snesSys x ≠ Base "Game".toList) :=
  getGame_returns_earliest_match snesSys snesCatalog "Game".toList _ (by decide) rfl

/-- C15: the entry `GetGame` returns comes from a catalog entry `x`; each of its
fields `Path`, `Image`, `Thumb` that is non-empty and not absolute in `x` is the
cleaned join of the directory of the catalog file with the stored value, each
that is empty or absolute is the stored value, and the other fields are those
of `x`. The stored path `./Game.sfc` in the catalog
`/home/pi/.emulationstation/gamelists/snes/gamelist.xml` resolves to
`/home/pi/.emulationstation/gamelists/snes/Game.sfc`. -/
theorem returned_entry_paths_resolved (s : system)
    (decodeFile : Str → Except GoError (List Game)) (game : Str) (r : Game)
    (h : GetGame s decodeFile game = (r, none)) :
    (∃ (gl : List Game) (x : Game), decodeFile s.GameListPath = .ok gl ∧ x ∈ gl ∧
      r.Path = (if x.Path ≠ [] ∧ ¬ IsAbs x.Path = true
        then Clean (Join [Dir s.GameListPath, x.Path]) else x.Path) ∧
      r.Image = (if x.Image ≠ [] ∧ ¬ IsAbs x.Image = true
        then Clean (Join [Dir s.GameListPath, x.Image]) else x.Image) ∧
      r.Thumb = (if x.Thumb ≠ [] ∧ ¬ IsAbs x.Thumb = true
        then Clean (Join [Dir s.GameListPath, x.Thumb]) else x.Thumb) ∧
      r.XMLName = x.XMLName ∧ r.GameTitle = x.GameTitle ∧ r.Overview = x.Overview ∧
      r.Rating = x.Rating ∧ r.ReleaseDate = x.ReleaseDate ∧ r.Developer = x.Developer ∧
      r.Publisher = x.Publisher ∧ r.Genre = x.Genre ∧ r.Players = x.Players) ∧
    (GetGame snesSys snesCatalog "Game".toList).1.Path
      = "/home/pi/.emulationstation/gamelists/snes/Game.sfc".toList ∧
    (GetGame snesSys snesCatalog "Game".toList).1.Image = "/img/Game.png".toList ∧
    (GetGame snesSys snesCatalog "Game".toList).1.Thumb = [] := by
  refine ⟨?_, by decide, by decide, by decide⟩
  unfold GetGame at h
  by_cases hgl : s.GameListPath = []
  · rw [if_pos hgl] at h
    simp at h
  · rw [if_neg hgl] at h
    cases hdec : decodeFile s.GameListPath with
    | error err =>
      rw [hdec] at h
      simp at h
    | ok gl =>
      rw [hdec] at h
      simp only [findGame_eq_find] at h
      cases hf : gl.find? (fun x => decide (storedName s x = Base game)) with
      | none =>
        rw [hf] at h
        simp at h
      | some x =>
        rw [hf] at h
        simp only [Option.map_some', Prod.mk.injEq, and_true] at h
        refine ⟨gl, x, rfl, List.mem_of_find?_eq_some hf, ?_⟩
        rw [← h]
        exact ⟨rfl, rfl, rfl, rfl, rfl, rfl, rfl, rfl, rfl, rfl, rfl, rfl⟩

/-- Witness of C15: the entry returned for the extracted path `Game`. -/
theorem returned_entry_paths_resolved_witness :
    (∃ (gl : List Game) (x : Game), snesCatalog snesSys.GameListPath = .ok gl ∧ x ∈ gl ∧
      (GetGame snesSys snesCatalog "Game".toList).1.Path = (if x.Path ≠ [] ∧ ¬ IsAbs x.Path = true
        then Clean (Join [Dir snesSys.GameListPath, x.Path]) else x.Path) ∧
      (GetGame snesSys snesCatalog "Game".toList).1.Image
        = (if x.Image ≠ [] ∧ ¬ IsAbs x.Image = true
          then Clean (Join [Dir snesSys.GameListPath, x.Image]) else x.Image) ∧
      (GetGame snesSys snesCatalog "Game".toList).1.Thumb
        = (if x.Thumb ≠ [] ∧ ¬ IsAbs x.Thumb = true
          then Clean (Join [Dir snesSys.GameListPath, x.Thumb]) else x.Thumb) ∧
      (GetGame snesSys snesCatalog "Game".toList).1.XMLName = x.XMLName ∧
      (GetGame snesSys snesCatalog "Game".toList).1.GameTitle = x.GameTitle ∧
      (GetGame snesSys snesCatalog "Game".toList).1.Overview = x.Overview ∧
      (GetGame snesSys snesCatalog "Game".toList).1.Rating = x.Rating ∧
      (GetGame snesSys snesCatalog "Game".toList).1.ReleaseDate = x.ReleaseDate ∧
      (GetGame snesSys snesCatalog "Game".toList).1.Developer = x.Developer ∧
      (GetGame snesSys snesCatalog "Game".toList).1.Publisher = x.Publisher ∧
      (GetGame snesSys snesCatalog "Game".toList).1.Genre = x.Genre ∧
      (GetGame snesSys snesCatalog "Game".toList).1.Players = x.Players) ∧
    (GetGame snesSys snesCatalog "Game".toList).1.Path
      = "/home/pi/.emulationstation/gamelists/snes/Game.sfc".toList ∧
    (GetGame snesSys snesCatalog "Game".toList).1.Image = "/img/Game.png".toList ∧
    (GetGame snesSys snesCatalog "Game".toList).1.Thumb = [] :=
  returned_entry_paths_resolved snesSys snesCatalog "Game".toList
    (GetGame snesSys snesCatalog "Game".toList).1 (by decide)

/-! ## The descriptor order -/

/-- C17: for a candidate with arguments `b`, if the descriptors `pre` return no
match and the next descriptor `s` returns the non-empty content path `m`, the
descriptor loop ends with `found` set and the `Start` event is built from `s`
alone: the result is the same whatever descriptors come after `s` (they are not
tried) and the same as without the descriptors `pre`. -/
theorem start_event_from_first_matching_descriptor (t : Tick) (p : Int) (b m : Str)
    (pre ss ss2 : List system) (s : system) (w : Watcher)
    (hpre : ∀ s0 ∈ pre, Match s0 b = some ([], none))
    (hm : Match s b = some (m, none)) (hne : m ≠ []) :
    scanSystems t p b (pre ++ s :: ss) w = scanSystems t p b (pre ++ s :: ss2) w ∧
    scanSystems t p b (pre ++ s :: ss) w = scanSystems t p b [s] w ∧
    (scanSystems t p b (pre ++ s :: ss) w).2 = .found ∧
    (scanSystems t p b (pre ++ s :: ss) w).1.Events
      = w.Events ++ [startEvent s t.now m (GetGame s t.decodeFile m)] ∧
    (startEvent s t.now m (GetGame s t.decodeFile m)).System
      = { Name := s.Name, FullName := s.FullName, Platform := s.Platform, Path := s.Path } ∧
    (scanSystems t p b (pre ++ s :: ss) w).1.running = p := by
  have h1 : ∀ rest : List system, scanSystems t p b (pre ++ s :: rest) w =
      ({ w with
          Errors := match (GetGame s t.decodeFile m).2 with
            | some err => w.Errors ++ [err]
            | none => w.Errors
          last := startEvent s t.now m (GetGame s t.decodeFile m)
          Events := w.Events ++ [startEvent s t.now m (GetGame s t.decodeFile m)]
          running := p }, .found) := by
    intro rest
    rw [scanSystems_skip_noMatch t p b pre (s :: rest) w hpre,
      scanSystems_match t p b m s rest w hm hne]
  have h2 := scanSystems_match t p b m s [] w hm hne
  refine ⟨by rw [h1 ss, h1 ss2], by rw [h1 ss, h2], by rw [h1 ss], by rw [h1 ss], rfl,
    by rw [h1 ss]⟩

/-- Witness of C17: `retroarchSys` returns no match for `emu a`, `emuSys`
matches; the descriptor after it would crash if it were tried. -/
theorem start_event_from_first_matching_descriptor_witness :
    scanSystems oneMatchTick 10 "sh\x00-c\x00emu a\x00".toList
        ([retroarchSys] ++ emuSys :: [{ Command := "emu a".toList }]) (Watcher.init [])
      = scanSystems oneMatchTick 10 "sh\x00-c\x00emu a\x00".toList
        ([retroarchSys] ++ emuSys :: []) (Watcher.init []) ∧
    scanSystems oneMatchTick 10 "sh\x00-c\x00emu a\x00".toList
        ([retroarchSys] ++ emuSys :: [{ Command := "emu a".toList }]) (Watcher.init [])
      = scanSystems oneMatchTick 10 "sh\x00-c\x00emu a\x00".toList [emuSys] (Watcher.init []) ∧
    (scanSystems oneMatchTick 10 "sh\x00-c\x00emu a\x00".toList
        ([retroarchSys] ++ emuSys :: [{ Command := "emu a".toList }]) (Watcher.init [])).2
      = .found ∧
    (scanSystems oneMatchTick 10 "sh\x00-c\x00emu a\x00".toList
        ([retroarchSys] ++ emuSys :: [{ Command := "emu a".toList }]) (Watcher.init [])).1.Events
      = (Watcher.init []).Events ++
        [startEvent emuSys oneMatchTick.now "a".toList
          (GetGame emuSys oneMatchTick.decodeFile "a".toList)] ∧
    (startEvent emuSys oneMatchTick.now "a".toList
        (GetGame emuSys oneMatchTick.decodeFile "a".toList)).System
      = { Name := emuSys.Name, FullName := emuSys.FullName, Platform := emuSys.Platform,
          Path := emuSys.Path } ∧
    (scanSystems oneMatchTick 10 "sh\x00-c\x00emu a\x00".toList
        ([retroarchSys] ++ emuSys :: [{ Command := "emu a".toList }]) (Watcher.init [])).1.running
      = 10 :=
  start_event_from_first_matching_descriptor oneMatchTick 10 "sh\x00-c\x00emu a\x00".toList
    "a".toList [retroarchSys] [{ Command := "emu a".toList }] [] emuSys (Watcher.init [])
    (by decide) (by decide) (by decide)

/-! ## The debounce table -/

theorem scanSystems_procs_opened (t : Tick) (p : Int) (b : Str) (ss : List system)
    (w : Watcher) :
    (scanSystems t p b ss w).1.procs = w.procs ∧ (scanSystems t p b ss w).1.opened = w.opened := by
  induction ss generalizing w with
  | nil => exact ⟨rfl, rfl⟩
  | cons s ss ih =>
    unfold scanSystems
    cases hm : Match s b with
    | none => exact ⟨rfl, rfl⟩
    | some r =>
      obtain ⟨m, oerr⟩ := r
      cases oerr with
      | some err => exact ih _
      | none =>
        by_cases hne : m = []
        · simp only [hne, if_true]
          exact ih _
        · simp only [hne, if_false]
          cases hg : (GetGame s t.decodeFile m).2 <;> exact ⟨rfl, rfl⟩

theorem scanSystems_all_noMatch (t : Tick) (p : Int) (b : Str) (ss : List system) (w : Watcher)
    (h : ∀ s ∈ ss, Match s b = some ([], none)) :
    scanSystems t p b ss w = (w, .notFound) := by
  have h1 := scanSystems_skip_noMatch t p b ss [] w h
  rw [List.append_nil] at h1
  rw [h1]
  rfl

theorem debounced_of_held (t : Tick) (w : Watcher) (p : Int) (t0 : Nat) (h : Held p t0 w)
    (hlt : t.now < t0 + tenMinutes) : debounced t w p = true := by
  obtain ⟨t1, h1, h2⟩ := h
  simp only [debounced, h1, decide_eq_true_eq]
  omega

/-- During a tick earlier than `t0` plus ten minutes, a process held in the
debounce table since `t0` is not opened, and it stays held. -/
theorem scanFiles_held_not_opened (t : Tick) (files : List FileInfo) (w : Watcher) (p : Int)
    (t0 : Nat) (h : Held p t0 w) (hlt : t.now < t0 + tenMinutes) :
    ∃ extra : List Int, (scanFiles t files w).opened = w.opened ++ extra ∧ p ∉ extra := by
  induction files generalizing w with
  | nil => exact ⟨[], by simp [scanFiles], by simp⟩
  | cons file files ih =>
    unfold scanFiles
    by_cases hdir : file.IsDir = true
    · simp only [hdir, Bool.not_true, Bool.false_eq_true, if_false]
      cases hq : Atoi file.Name with
      | none => exact ih w h
      | some q =>
        by_cases hdeb : debounced t w q = true
        · simp only [hdeb, if_true]
          exact ih w h
        · simp only [hdeb, Bool.false_eq_true, if_false]
          have hqp : q ≠ p := by
            intro hqp
            rw [hqp] at hdeb
            exact hdeb (debounced_of_held t w p t0 h hlt)
          have hpq : p ≠ q := fun hh => hqp hh.symm
          cases hread : t.cmdline q with
          | openErr err =>
            obtain ⟨extra, h1, h2⟩ := ih
              { w with Errors := w.Errors ++ [err], opened := w.opened ++ [q] } h
            refine ⟨q :: extra, ?_, ?_⟩
            · simp only []
              rw [h1]
              simp
            · simp [hpq, h2]
          | readErr err =>
            refine ⟨[q], rfl, ?_⟩
            simp [hpq]
          | ok b =>
            have hs := scanSystems_procs_opened t q b w.systems
              { w with opened := w.opened ++ [q] }
            rcases hr : scanSystems t q b w.systems { w with opened := w.opened ++ [q] }
              with ⟨w1, fin⟩
            rw [hr] at hs
            obtain ⟨hs1, hs2⟩ := hs
            simp only [hr]
            have hw1 : Held p t0 w1 := by
              obtain ⟨t1, h1, h2⟩ := h
              exact ⟨t1, by rw [hs1]; exact h1, h2⟩
            cases fin with
            | found =>
              obtain ⟨extra, h1, h2⟩ := ih w1 hw1
              refine ⟨q :: extra, ?_, ?_⟩
              · simp only []
                rw [h1, hs2]
                simp
              · simp [hpq, h2]
            | notFound =>
              have hw2 : Held p t0
                  { w1 with procs := fun r => if r = q then some t.now else w1.procs r } := by
                obtain ⟨t1, h1, h2⟩ := hw1
                exact ⟨t1, by simp [hpq, h1], h2⟩
              obtain ⟨extra, h1, h2⟩ := ih _ hw2
              refine ⟨q :: extra, ?_, ?_⟩
              · simp only []
                rw [h1, hs2]
                simp
              · simp [hpq, h2]
            | crashed =>
              refine ⟨[q], ?_, ?_⟩
              · simp only []
                rw [hs2]
              · simp [hpq]
    · simp only [hdir, Bool.not_false, if_true]
      exact ih w h

/-- A process held in the debounce table since `t0` stays held through the scan
of any tick: its entry is only ever replaced by a later time. -/
theorem scanFiles_held (t : Tick) (files : List FileInfo) (w : Watcher) (p : Int) (t0 : Nat)
    (h : Held p t0 w) : Held p t0 (scanFiles t files w) := by
  induction files generalizing w with
  | nil => exact h
  | cons file files ih =>
    unfold scanFiles
    by_cases hdir : file.IsDir = true
    · simp only [hdir, Bool.not_true, Bool.false_eq_true, if_false]
      cases hq : Atoi file.Name with
      | none => exact ih w h
      | some q =>
        by_cases hdeb : debounced t w q = true
        · simp only [hdeb, if_true]
          exact ih w h
        · simp only [hdeb, Bool.false_eq_true, if_false]
          cases hread : t.cmdline q with
          | openErr err => exact ih _ h
          | readErr err => exact h
          | ok b =>
            have hs := scanSystems_procs_opened t q b w.systems
              { w with opened := w.opened ++ [q] }
            rcases hr : scanSystems t q b w.systems { w with opened := w.opened ++ [q] }
              with ⟨w1, fin⟩
            rw [hr] at hs
            obtain ⟨hs1, _⟩ := hs
            simp only [hr]
            have hw1 : Held p t0 w1 := by
              obtain ⟨t1, h1, h2⟩ := h
              exact ⟨t1, by rw [hs1]; exact h1, h2⟩
            cases fin with
            | found => exact ih w1 hw1
            | notFound =>
              apply ih
              by_cases hpq : p = q
              · obtain ⟨t1, h1, h2⟩ := h
                have hnd : ¬ t.now < t1 + tenMinutes := by
                  intro hlt
                  apply hdeb
                  rw [← hpq]
                  simp only [debounced, h1, decide_eq_true_eq]
                  exact hlt
                exact ⟨t.now, by simp [hpq], by omega⟩
              · obtain ⟨t1, h1, h2⟩ := hw1
                exact ⟨t1, by simp [hpq, h1], h2⟩
            | crashed => exact hw1
    · simp only [hdir, Bool.not_false, if_true]
      exact ih w h

theorem tick_held (t : Tick) (w : Watcher) (p : Int) (t0 : Nat) (h : Held p t0 w) :
    Held p t0 (tick t w) := by
  unfold tick
  by_cases hst : w.status ≠ .looping
  · rw [if_pos hst]
    exact h
  · rw [if_neg hst]
    by_cases hcl : t.isClosed = true
    · rw [if_pos hcl]
      exact h
    · rw [if_neg hcl]
      by_cases hal : w.running ≠ -1 ∧ t.cmdlineExists w.running = true
      · rw [if_pos hal]
        exact h
      · rw [if_neg hal]
        apply scanFiles_held
        obtain ⟨t1, h1, h2⟩ := h
        refine ⟨t1, ?_, h2⟩
        by_cases hrun : w.running ≠ -1 <;> cases hrd : t.readDirErr <;> simp [hrun, h1]

theorem run_held (ticks : List Tick) (w : Watcher) (p : Int) (t0 : Nat) (h : Held p t0 w) :
    Held p t0 (run ticks w) := by
  induction ticks generalizing w with
  | nil => exact h
  | cons t ticks ih => exact ih _ (tick_held t w p t0 h)

theorem tick_held_not_opened (t : Tick) (w : Watcher) (p : Int) (t0 : Nat) (h : Held p t0 w)
    (hlt : t.now < t0 + tenMinutes) :
    ∃ extra : List Int, (tick t w).opened = w.opened ++ extra ∧ p ∉ extra := by
  unfold tick
  by_cases hst : w.status ≠ .looping
  · rw [if_pos hst]
    exact ⟨[], by simp, by simp⟩
  · rw [if_neg hst]
    by_cases hcl : t.isClosed = true
    · rw [if_pos hcl]
      exact ⟨[], by simp, by simp⟩
    · rw [if_neg hcl]
      by_cases hal : w.running ≠ -1 ∧ t.cmdlineExists w.running = true
      · rw [if_pos hal]
        exact ⟨[], by simp, by simp⟩
      · rw [if_neg hal]
        obtain ⟨t1, h1, h2⟩ := h
        have key : ∀ W : Watcher, W.procs = w.procs → W.opened = w.opened →
            ∃ extra : List Int, (scanFiles t t.files W).opened = w.opened ++ extra ∧
              p ∉ extra := by
          intro W hp ho
          have h3 := scanFiles_held_not_opened t t.files W p t0
            ⟨t1, by rw [hp]; exact h1, h2⟩ hlt
          rw [ho] at h3
          exact h3
        apply key
        · by_cases hrun : w.running ≠ -1 <;> cases hrd : t.readDirErr <;> simp [hrun]
        · by_cases hrun : w.running ≠ -1 <;> cases hrd : t.readDirErr <;> simp [hrun]

/-- C16: let the candidate `p` be inspected in the scan of tick `tk` (its entry
is a directory with a numeric name, it is not debounced, its `cmdline` is read)
and let its arguments match no descriptor. Then, after the rest of that scan
and any further ticks `later`, a tick `t` with `t.now` earlier than `tk.now`
plus ten minutes opens no `cmdline` of `p`, whatever its process table lists:
the `cmdline` entries opened during `t` do not include `p`. -/
theorem unmatched_process_not_reopened_in_window (tk : Tick) (file : FileInfo)
    (files : List FileInfo) (w : Watcher) (p : Int) (b : Str) (later : List Tick) (t : Tick)
    (hdir : file.IsDir = true) (hp : Atoi file.Name = some p)
    (hdeb : debounced tk w p = false) (hread : tk.cmdline p = .ok b)
    (hnone : ∀ s ∈ w.systems, Match s b = some ([], none))
    (hlt : t.now < tk.now + tenMinutes) :
    ∃ extra : List Int,
      (tick t (run later (scanFiles tk (file :: files) w))).opened
        = (run later (scanFiles tk (file :: files) w)).opened ++ extra ∧
      p ∉ extra := by
  have hstep : scanFiles tk (file :: files) w =
      scanFiles tk files
        { w with
          opened := w.opened ++ [p]
          procs := fun q => if q = p then some tk.now else w.procs q } := by
    have hs := scanSystems_all_noMatch tk p b w.systems { w with opened := w.opened ++ [p] } hnone
    simp only [scanFiles, hdir, hp, hdeb, hread, hs]
    simp
  have h0 : Held p tk.now
      { w with
        opened := w.opened ++ [p]
        procs := fun q => if q = p then some tk.now else w.procs q } :=
    ⟨tk.now, by simp, Nat.le_refl _⟩
  have h1 : Held p tk.now (scanFiles tk (file :: files) w) := by
    rw [hstep]
    exact scanFiles_held tk files _ p tk.now h0
  exact tick_held_not_opened t _ p tk.now (run_held later _ p tk.now h1) hlt

/-- Witness of C16: process 10 matches no descriptor at time 5; one second
later it is listed again and is not opened. -/
theorem unmatched_process_not_reopened_in_window_witness :
    ∃ extra : List Int,
      (tick otherTickLater
          (run [] (scanFiles otherTick (⟨"10".toList, true⟩ :: []) (Watcher.init [emuSys])))).opened
        = (run [] (scanFiles otherTick (⟨"10".toList, true⟩ :: [])
            (Watcher.init [emuSys]))).opened ++ extra ∧
      (10 : Int) ∉ extra :=
  unmatched_process_not_reopened_in_window otherTick ⟨"10".toList, true⟩ []
    (Watcher.init [emuSys]) 10 "sh\x00other\x00".toList [] otherTickLater
    (by decide) (by decide) (by decide) (by decide) (by decide) (by decide)

end RW
